import Mathlib

/-!
# Verification of the bitespeed-identify reconciliation core

A shallow embedding of the identity-reconciliation service:

* `normalizeEmail` / `normalizePhone` — `src/utils/normalize.ts`
* `Contact`, `Store` and the repository operations — `src/repositories/contact.repository.ts`
  (the Prisma-backed table is modelled as a list of rows plus an id counter and a
  logical clock supplying `createdAt` values)
* `reconcile`, `resolvePrimaryIds`, `mergePrimaries` (`mergeLoop`), `gatherAllLinked`,
  `buildResponse`, `identifyService` — `src/services/contact.service.ts`
* `LockSys` / `LStep` — an operational model of `AsyncLock` (`src/utils/async-lock.ts`)
  under the JavaScript event-loop scheduling discipline.

JavaScript `null`/`undefined` are collapsed into `Option.none`; JS string truthiness
(`if (email)`) is modelled by `truthy`.
-/

namespace Bitespeed

/-! ## Normalizer (`src/utils/normalize.ts`) -/

/-- JS truthiness of a nullable string: `null`, `undefined` and `""` are falsy. -/
def truthy : Option String → Bool
  | none => false
  | some s => s ≠ ""

/-- `normalizeEmail`: `if (!email) return null; return email.trim().toLowerCase();` -/
def normalizeEmail : Option String → Option String
  | none => none
  | some e => if e = "" then none else some e.trim.toLower

/-- A raw phone value: the TS signature accepts `string | number`.
Numbers are modelled as naturals; `String(n)` is decimal notation. -/
inductive RawPhone where
  | str (s : String)
  | num (n : Nat)
deriving DecidableEq, Repr

/-- `String(phone)` — the coercion applied first in `normalizePhone`. -/
def RawPhone.asString : RawPhone → String
  | .str s => s
  | .num n => toString n

/-- `phone.replace(/\D/g, "")` — keep only ASCII digits. -/
def stripNonDigits (s : String) : String :=
  String.mk (s.toList.filter Char.isDigit)

/-- `normalizePhone`: null/undefined → null; otherwise strip non-digits from
`String(phone)`; an empty remainder yields null. -/
def normalizePhone : Option RawPhone → Option String
  | none => none
  | some r =>
      let digits := stripNonDigits r.asString
      if digits.length > 0 then some digits else none

/-! ## Data model (`prisma/schema.prisma` migration in the repo) -/

inductive LinkPrecedence where
  | primary
  | secondary
deriving DecidableEq, Repr

/-- One row of the `contacts` table.  `updatedAt` is never read by the core and
is omitted.  `createdAt` is a logical timestamp. -/
structure Contact where
  id : Nat
  email : Option String
  phoneNumber : Option String
  linkedId : Option Nat
  linkPrecedence : LinkPrecedence
  createdAt : Nat
  deletedAt : Option Nat
deriving DecidableEq, Repr

/-- The contact table: rows, the autoincrement counter, and a logical clock
(strictly increasing) supplying `createdAt` for new rows. -/
structure Store where
  contacts : List Contact
  nextId : Nat
  now : Nat
deriving DecidableEq, Repr

/-! ## Repository layer (`src/repositories/contact.repository.ts`) -/

/-- Insertion sort step for `orderBy: { createdAt: "asc" }`. -/
def insertByCreated (c : Contact) : List Contact → List Contact
  | [] => [c]
  | d :: ds => if c.createdAt ≤ d.createdAt then c :: d :: ds else d :: insertByCreated c ds

/-- `orderBy: { createdAt: "asc" }`. -/
def sortByCreated : List Contact → List Contact
  | [] => []
  | c :: cs => insertByCreated c (sortByCreated cs)

/-- The `where` clause of `findContactsByEmailOrPhone`: an `OR` of the
conditions pushed for each truthy input, each requiring `deletedAt: null`. -/
def matchesQuery (email phone : Option String) (c : Contact) : Bool :=
  (truthy email && c.email == email && c.deletedAt == none) ||
  (truthy phone && c.phoneNumber == phone && c.deletedAt == none)

/-- `findContactsByEmailOrPhone`: if no condition was pushed return `[]`,
else query with the OR of the conditions, ordered by `createdAt` asc. -/
def findContactsByEmailOrPhone (email phone : Option String) (s : Store) : List Contact :=
  if truthy email || truthy phone then
    sortByCreated (s.contacts.filter (matchesQuery email phone))
  else []

/-- `createContact`: insert a row; Prisma assigns `id` (autoincrement) and
`createdAt` (current time). -/
def createContact (email phoneNumber : Option String) (linkedId : Option Nat)
    (lp : LinkPrecedence) (s : Store) : Contact × Store :=
  let c : Contact :=
    { id := s.nextId, email := email, phoneNumber := phoneNumber, linkedId := linkedId
      linkPrecedence := lp, createdAt := s.now, deletedAt := none }
  (c, { contacts := s.contacts ++ [c], nextId := s.nextId + 1, now := s.now + 1 })

/-- `findSecondariesByPrimaryId`: non-deleted rows with `linkedId = primaryId`,
ordered by `createdAt` asc. -/
def findSecondariesByPrimaryId (primaryId : Nat) (s : Store) : List Contact :=
  sortByCreated (s.contacts.filter (fun c => c.linkedId == some primaryId && c.deletedAt == none))

/-- `demotePrimaryToSecondary`: `update({ where: { id }, data: { linkedId, linkPrecedence } })`.
Prisma's `update` raises (P2025) when no row has the id. -/
def demotePrimaryToSecondary (contactId newPrimaryId : Nat) (s : Store) : Except String Store :=
  if s.contacts.any (fun c => c.id == contactId) then
    .ok { s with contacts := s.contacts.map (fun c =>
          if c.id == contactId then
            { c with linkedId := some newPrimaryId, linkPrecedence := .secondary }
          else c) }
  else .error "P2025: record to update not found"

/-- `relinkSecondaries`: `updateMany` on non-deleted rows with
`linkedId = oldPrimaryId`, setting `linkedId = newPrimaryId`. -/
def relinkSecondaries (oldPrimaryId newPrimaryId : Nat) (s : Store) : Store :=
  { s with contacts := s.contacts.map (fun c =>
      if c.linkedId == some oldPrimaryId && c.deletedAt == none then
        { c with linkedId := some newPrimaryId }
      else c) }

/-- `findContactById`: `findUnique({ where: { id } })` — note: no `deletedAt`
filter, a soft-deleted row is returned. -/
def findContactById (id : Nat) (s : Store) : Option Contact :=
  s.contacts.find? (fun c => c.id == id)

/-! ## Reconciliation engine (`src/services/contact.service.ts`) -/

/-- The consolidated response object (`IdentifyResponse.contact`; the field name
`primaryContatctId` is the repository's spelling). -/
structure ContactResponse where
  primaryContatctId : Nat
  emails : List String
  phoneNumbers : List String
  secondaryContactIds : List Nat
deriving DecidableEq, Repr

/-- The loop body of `buildResponse` for the email (resp. phone) column:
`if (s.email && !emails.includes(s.email)) emails.push(s.email)`. -/
def pushVals (get : Contact → Option String) (init : List String)
    (secondaries : List Contact) : List String :=
  secondaries.foldl (fun acc sc =>
    match get sc with
    | some v => if v ≠ "" && !(acc.contains v) then acc ++ [v] else acc
    | none => acc) init

/-- The primary's value opens the list when truthy (`if (primary.email) emails.push(...)`). -/
def initVal : Option String → List String
  | some v => if v = "" then [] else [v]
  | none => []

/-- `buildResponse`. -/
def buildResponse (primary : Contact) (secondaries : List Contact) : ContactResponse :=
  { primaryContatctId := primary.id
    emails := pushVals (·.email) (initVal primary.email) secondaries
    phoneNumbers := pushVals (·.phoneNumber) (initVal primary.phoneNumber) secondaries
    secondaryContactIds := secondaries.map (·.id) }

/-- Insertion sort on the primary-id list (`Array.from(ids).sort((a, b) => a - b)`). -/
def insertNat (n : Nat) : List Nat → List Nat
  | [] => [n]
  | m :: ms => if n ≤ m then n :: m :: ms else m :: insertNat n ms

def sortNat : List Nat → List Nat
  | [] => []
  | n :: ns => insertNat n (sortNat ns)

/-- `resolvePrimaryIds`: each primary contributes its own id, each secondary its
`linkedId` (when non-null); the distinct ids are returned sorted ascending. -/
def resolvePrimaryIds (contacts : List Contact) : List Nat :=
  sortNat ((contacts.filterMap (fun c =>
    if c.linkPrecedence = .primary then some c.id else c.linkedId)).dedup)

/-- The loser loop of `mergePrimaries`: for each loser (ascending), re-link its
secondaries to the survivor, then demote the loser itself. -/
def mergeLoop (survivorId : Nat) : List Nat → Store → Except String Store
  | [], s => .ok s
  | l :: ls, s =>
      match demotePrimaryToSecondary l survivorId (relinkSecondaries l survivorId s) with
      | .ok s' => mergeLoop survivorId ls s'
      | .error e => .error e

/-- `gatherAllLinked`: the primary row (fetched by id) plus its non-deleted
secondaries; a missing primary row raises. -/
def gatherAllLinked (primaryId : Nat) (s : Store) : Except String (List Contact) :=
  match findContactById primaryId s with
  | none => .error ("Primary contact " ++ toString primaryId ++ " not found")
  | some primary => .ok (primary :: findSecondariesByPrimaryId primaryId s)

/-- `reconcile` — the core algorithm.  The returned `Store` is the table after
all writes performed before the outcome (there is no enclosing transaction). -/
def reconcile (email phone : Option String) (s : Store) :
    Except String ContactResponse × Store :=
  let matchedContacts := findContactsByEmailOrPhone email phone s
  match matchedContacts with
  | [] =>
      -- Case 1: no matches → brand-new primary
      let (newContact, s1) := createContact email phone none .primary s
      (.ok (buildResponse newContact []), s1)
  | _ :: _ =>
    match resolvePrimaryIds matchedContacts with
    | [] =>
        -- unreachable when linkage is well-formed: `primaryIds[0]` is `undefined`
        (.error "TypeError: no primary id resolved", s)
    | primaryId :: restIds =>
      let merged : Except String Store :=
        if restIds.isEmpty then .ok s else mergeLoop primaryId restIds s
      match merged with
      | .error e => (.error e, s)
      | .ok s1 =>
        match gatherAllLinked primaryId s1 with
        | .error e => (.error e, s1)
        | .ok allLinked0 =>
          let emailExists := allLinked0.any (fun c => c.email == email)
          let phoneExists := allLinked0.any (fun c => c.phoneNumber == phone)
          let hasNewInfo := (truthy email && !emailExists) || (truthy phone && !phoneExists)
          let (allLinked, s2) :=
            if hasNewInfo then
              let (secondary, s2) := createContact email phone (some primaryId) .secondary s1
              (allLinked0 ++ [secondary], s2)
            else (allLinked0, s1)
          match allLinked.find? (fun c => c.id == primaryId) with
          | none => (.error "TypeError: primary missing from gathered cluster", s2)
          | some primary =>
              (.ok (buildResponse primary (allLinked.filter (fun c => !(c.id == primaryId)))), s2)

/-- The request body after JSON parsing: `email?: string, phoneNumber?: string | number`. -/
structure IdentifyRequest where
  email : Option String
  phoneNumber : Option RawPhone

/-- Observable outcome of one `identifyService` call: the value returned or
error propagated, the table afterwards, the lock key used, and how many times
the acquired release handle was invoked. -/
structure IdentifyOutcome where
  result : Except String ContactResponse
  store : Store
  lockKey : String
  releaseCalls : Nat
deriving Repr

/-- `try { body } finally { release() }` with a non-throwing `release`:
both exit paths run the cleanup exactly once and forward the outcome. -/
def tryFinallyRelease {α : Type} (body : Except String α) : Except String α × Nat :=
  match body with
  | .ok a => (.ok a, 1)
  | .error e => (.error e, 1)

/-- `identifyService`: normalize, acquire the keyed mutex on
`identify:<email>:<phone>`, run `reconcile` under `try/finally`. -/
def identifyService (input : IdentifyRequest) (s : Store) : IdentifyOutcome :=
  let email := normalizeEmail input.email
  let phone := normalizePhone input.phoneNumber
  let lockKey := "identify:" ++ (email.getD "") ++ ":" ++ (phone.getD "")
  let (r, s') := reconcile email phone s
  let (result, releases) := tryFinallyRelease r
  { result := result, store := s', lockKey := lockKey, releaseCalls := releases }

/-! ## Small list helpers -/

/-- `Array.prototype.includes` ↔ list membership. -/
theorem contains_eq_mem (acc : List String) (v : String) :
    acc.contains v = decide (v ∈ acc) :=
  List.elem_eq_mem v acc

/-! ## C9: `normalizePhone` -/

/-- **C9.** `normalizePhone` accepts string or numeric input (`RawPhone`); a
number normalizes exactly like its decimal digit string; a string input is
reduced to its digit characters in order, and `none` is returned exactly when
no digit remains (null/undefined input also yields `none`). -/
theorem c9_normalizePhone_spec (s : String) (n : Nat) :
    normalizePhone (some (.num n)) = normalizePhone (some (.str (toString n))) ∧
    normalizePhone (some (.str s)) =
      (if s.toList.filter Char.isDigit = [] then none
       else some (String.mk (s.toList.filter Char.isDigit))) ∧
    normalizePhone none = none := by
  refine ⟨rfl, ?_, rfl⟩
  simp only [normalizePhone, stripNonDigits, RawPhone.asString]
  cases hl : s.toList.filter Char.isDigit with
  | nil => simp [hl, String.length]
  | cons c cs => simp [hl, String.length]

/-! ## C7: `buildResponse` ordering and dedup -/

/-- Specification-side description of the value lists in the response: walk
the cluster (primary first), keep each truthy value the first time it is
seen, drop later duplicates.  Written independently of the `foldl`/`includes`
loop in `buildResponse`. -/
def firstSeenVals : List (Option String) → List String
  | [] => []
  | none :: xs => firstSeenVals xs
  | some v :: xs =>
      if v = "" then firstSeenVals xs
      else v :: (firstSeenVals xs).filter (fun w => w ≠ v)

/-- Dropping later occurrences of a value a filter already excludes does not
change the filter's output. -/
theorem filter_ne_absorb (p : String → Bool) (v : String) (hv : p v = false) :
    ∀ l : List String, (l.filter (fun w => w ≠ v)).filter p = l.filter p := by
  intro l
  rw [List.filter_filter]
  refine List.filter_congr ?_
  intro x hx
  by_cases h1 : x = v
  · subst h1; simp [hv]
  · simp [h1]

/-- The `buildResponse` accumulation loop equals the first-seen description,
relative to an arbitrary already-accumulated prefix. -/
theorem pushVals_eq_firstSeen (get : Contact → Option String) (ss : List Contact) :
    ∀ acc : List String,
    pushVals get acc ss =
      acc ++ (firstSeenVals (ss.map get)).filter (fun v => !(acc.contains v)) := by
  induction ss with
  | nil => intro acc; simp [pushVals, firstSeenVals]
  | cons c cs ih =>
      intro acc
      show pushVals get (match get c with
            | some v => if v ≠ "" && !(acc.contains v) then acc ++ [v] else acc
            | none => acc) cs = _
      cases hg : get c with
      | none =>
          show pushVals get acc cs = _
          rw [ih acc]
          simp only [List.map_cons]
          rw [hg]
          simp only [firstSeenVals]
      | some v =>
          show pushVals get (if v ≠ "" && !(acc.contains v) then acc ++ [v] else acc) cs = _
          simp only [List.map_cons]
          rw [hg]
          by_cases hv : v = ""
          · subst hv
            show pushVals get acc cs = _
            rw [ih acc]
            simp [firstSeenVals]
          · by_cases hmem : v ∈ acc
            · have hcond : (decide (v ≠ "") && !acc.contains v) = false := by
                rw [contains_eq_mem]; simp [hmem]
              rw [hcond, if_neg (by simp)]
              rw [ih acc]
              simp only [firstSeenVals, if_neg hv]
              congr 1
              rw [List.filter_cons]
              have hPv : (!acc.contains v) = false := by
                rw [contains_eq_mem]; simp [hmem]
              rw [hPv]
              simp only [Bool.false_eq_true, if_false]
              rw [filter_ne_absorb _ v hPv]
            · have hcond : (decide (v ≠ "") && !acc.contains v) = true := by
                rw [contains_eq_mem]; simp [hv, hmem]
              rw [hcond, if_pos rfl]
              rw [ih (acc ++ [v])]
              simp only [firstSeenVals, if_neg hv]
              rw [List.append_assoc, List.singleton_append]
              congr 1
              rw [List.filter_cons]
              have hPv : (!acc.contains v) = true := by
                rw [contains_eq_mem]; simp [hmem]
              rw [hPv, if_pos rfl]
              congr 1
              rw [List.filter_filter]
              refine List.filter_congr ?_
              intro x hx
              rw [contains_eq_mem, contains_eq_mem]
              by_cases h1 : x = v <;> by_cases h2 : x ∈ acc <;> simp [h1, h2]

/-- One column of the response equals the first-seen description over the
whole cluster, primary first. -/
theorem pushVals_initVal (get : Contact → Option String) (p : Contact) (ss : List Contact) :
    pushVals get (initVal (get p)) ss = firstSeenVals ((p :: ss).map get) := by
  rw [pushVals_eq_firstSeen]
  simp only [List.map_cons]
  cases hg : get p with
  | none =>
      simp only [initVal, firstSeenVals, List.nil_append]
      refine Eq.trans (List.filter_congr ?_) (List.filter_true _)
      intro x hx
      rfl
  | some v =>
      by_cases hv : v = ""
      · subst hv
        simp only [initVal, if_pos rfl, firstSeenVals, List.nil_append]
        refine Eq.trans (List.filter_congr ?_) (List.filter_true _)
        intro x hx
        rfl
      · simp only [initVal, if_neg hv, firstSeenVals]
        rw [List.singleton_append]
        congr 1
        refine List.filter_congr ?_
        intro x hx
        rw [contains_eq_mem]
        by_cases h1 : x = v <;> simp [h1]

/-- **C7.** `buildResponse` lists the primary's email first (when truthy),
then each secondary's email in cluster order, skipping values already listed
(first-seen order, never re-sorted); the identical rule applies to phone
numbers; secondary ids appear in cluster order. -/
theorem c7_buildResponse_shape (p : Contact) (ss : List Contact) :
    buildResponse p ss =
      { primaryContatctId := p.id
        emails := firstSeenVals ((p :: ss).map (·.email))
        phoneNumbers := firstSeenVals ((p :: ss).map (·.phoneNumber))
        secondaryContactIds := ss.map (·.id) } := by
  unfold buildResponse
  rw [pushVals_initVal, pushVals_initVal]

/-! ## C5: `identifyService` releases exactly once and propagates the outcome -/

/-- **C5.** For every request and store, the release handle acquired by
`identifyService` is invoked exactly once — on both the success path and the
error path of `reconcile` — and the outcome (value or error) of `reconcile`
is forwarded unchanged to the caller, never swallowed. -/
theorem c5_release_once_propagates (input : IdentifyRequest) (s : Store) :
    (identifyService input s).releaseCalls = 1 ∧
    (identifyService input s).result =
      (reconcile (normalizeEmail input.email) (normalizePhone input.phoneNumber) s).1 ∧
    (identifyService input s).store =
      (reconcile (normalizeEmail input.email) (normalizePhone input.phoneNumber) s).2 := by
  cases hr : reconcile (normalizeEmail input.email) (normalizePhone input.phoneNumber) s with
  | mk r s' => cases r <;> simp [identifyService, tryFinallyRelease, hr]

/-! ## Sorting lemmas -/

theorem insertByCreated_perm (c : Contact) (l : List Contact) :
    (insertByCreated c l).Perm (c :: l) := by
  induction l with
  | nil => exact List.Perm.refl _
  | cons d ds ih =>
      rw [insertByCreated]
      by_cases h : c.createdAt ≤ d.createdAt
      · rw [if_pos h]
      · rw [if_neg h]
        exact (ih.cons d).trans (List.Perm.swap c d ds)

theorem sortByCreated_perm (l : List Contact) : (sortByCreated l).Perm l := by
  induction l with
  | nil => exact List.Perm.refl _
  | cons c cs ih => exact (insertByCreated_perm c (sortByCreated cs)).trans (ih.cons c)

theorem mem_sortByCreated {c : Contact} {l : List Contact} :
    c ∈ sortByCreated l ↔ c ∈ l :=
  (sortByCreated_perm l).mem_iff

theorem insertNat_perm (n : Nat) (l : List Nat) : (insertNat n l).Perm (n :: l) := by
  induction l with
  | nil => exact List.Perm.refl _
  | cons m ms ih =>
      rw [insertNat]
      by_cases h : n ≤ m
      · rw [if_pos h]
      · rw [if_neg h]
        exact (ih.cons m).trans (List.Perm.swap n m ms)

theorem sortNat_perm (l : List Nat) : (sortNat l).Perm l := by
  induction l with
  | nil => exact List.Perm.refl _
  | cons n ns ih => exact (insertNat_perm n (sortNat ns)).trans (ih.cons n)

theorem mem_sortNat {n : Nat} {l : List Nat} : n ∈ sortNat l ↔ n ∈ l :=
  (sortNat_perm l).mem_iff

theorem insertNat_sorted {n : Nat} {l : List Nat} (h : l.Pairwise (· ≤ ·)) :
    (insertNat n l).Pairwise (· ≤ ·) := by
  induction l with
  | nil => simp [insertNat]
  | cons m ms ih =>
      rw [List.pairwise_cons] at h
      rw [insertNat]
      by_cases hle : n ≤ m
      · rw [if_pos hle]
        refine List.pairwise_cons.mpr ⟨?_, List.pairwise_cons.mpr h⟩
        intro a ha
        rcases List.mem_cons.mp ha with rfl | ha
        · exact hle
        · exact le_trans hle (h.1 a ha)
      · rw [if_neg hle]
        refine List.pairwise_cons.mpr ⟨?_, ih h.2⟩
        intro a ha
        rcases List.mem_cons.mp ((insertNat_perm n ms).mem_iff.mp ha) with rfl | ha
        · omega
        · exact h.1 a ha

theorem sortNat_sorted (l : List Nat) : (sortNat l).Pairwise (· ≤ ·) := by
  induction l with
  | nil => simp [sortNat]
  | cons n ns ih => exact insertNat_sorted ih

/-- On a duplicate-free input, the ascending sort is strictly increasing. -/
theorem sortNat_pairwise_lt {l : List Nat} (h : l.Nodup) :
    (sortNat l).Pairwise (· < ·) := by
  have hnd : (sortNat l).Nodup := ((sortNat_perm l).nodup_iff).mpr h
  exact ((sortNat_sorted l).and hnd).imp (fun hab => lt_of_le_of_ne hab.1 hab.2)

/-! ## The data-model invariant (spec §3) -/

/-- The data-model invariants of the spec, over live (non-soft-deleted) rows:
ids and creation times are bounded by the store's counters; ids are unique;
id order agrees with creation order (monotonic id source); linkage is a
depth-≤1 star: a live primary has `linkedId = null`, a live secondary points
at a live, strictly older primary. -/
def Inv (s : Store) : Prop :=
  (∀ c ∈ s.contacts, c.id < s.nextId ∧ c.createdAt < s.now) ∧
  (s.contacts.map (·.id)).Nodup ∧
  (∀ c ∈ s.contacts, ∀ d ∈ s.contacts, c.id < d.id → c.createdAt < d.createdAt) ∧
  (∀ c ∈ s.contacts, c.deletedAt = none →
      (c.linkPrecedence = .primary → c.linkedId = none) ∧
      (c.linkPrecedence = .secondary → ∃ p ∈ s.contacts, p.deletedAt = none ∧
         p.linkPrecedence = .primary ∧ c.linkedId = some p.id ∧ p.id < c.id))

instance (s : Store) : Decidable (Inv s) := by
  unfold Inv
  infer_instance

/-- Unique ids make rows with equal ids equal. -/
theorem id_inj {s : Store} (hInv : Inv s) {c d : Contact}
    (hc : c ∈ s.contacts) (hd : d ∈ s.contacts) (h : c.id = d.id) : c = d :=
  List.inj_on_of_nodup_map hInv.2.1 hc hd h

/-- Rows returned by the match query are live rows of the table. -/
theorem mem_matched {e ph : Option String} {s : Store} {c : Contact}
    (h : c ∈ findContactsByEmailOrPhone e ph s) :
    c ∈ s.contacts ∧ c.deletedAt = none := by
  rw [findContactsByEmailOrPhone] at h
  by_cases hg : (truthy e || truthy ph) = true
  · rw [if_pos hg] at h
    have h' := List.mem_filter.mp (mem_sortByCreated.mp h)
    refine ⟨h'.1, ?_⟩
    have hm := h'.2
    rw [matchesQuery] at hm
    rcases Bool.or_eq_true_iff.mp hm with hm' | hm' <;>
      · have := (Bool.and_eq_true_iff.mp hm').2
        simpa using this
  · rw [if_neg hg] at h
    exact absurd h (List.not_mem_nil c)

/-- Every element of `resolvePrimaryIds` comes from a matched row: its own id
for a primary, its `linkedId` for a secondary. -/
theorem mem_resolvePrimaryIds {contacts : List Contact} {pid : Nat} :
    pid ∈ resolvePrimaryIds contacts ↔
      ∃ c ∈ contacts,
        (if c.linkPrecedence = .primary then some c.id else c.linkedId) = some pid := by
  rw [resolvePrimaryIds, mem_sortNat, List.mem_dedup, List.mem_filterMap]

/-- Under the invariant, every resolved primary id is the id of a live
primary row of the table. -/
theorem resolved_is_live_primary {e ph : Option String} {s : Store} (hInv : Inv s)
    {pid : Nat} (hmem : pid ∈ resolvePrimaryIds (findContactsByEmailOrPhone e ph s)) :
    ∃ p ∈ s.contacts, p.id = pid ∧ p.deletedAt = none ∧ p.linkPrecedence = .primary := by
  obtain ⟨c, hc, hf⟩ := mem_resolvePrimaryIds.mp hmem
  obtain ⟨hcmem, hclive⟩ := mem_matched hc
  by_cases hp : c.linkPrecedence = .primary
  · rw [if_pos hp] at hf
    exact ⟨c, hcmem, Option.some_injective _ hf, hclive, hp⟩
  · rw [if_neg hp] at hf
    have hsec : c.linkPrecedence = .secondary := by
      cases hlp : c.linkPrecedence
      · exact absurd hlp hp
      · rfl
    obtain ⟨p, hpmem, hplive, hpprim, hplink, _⟩ := ((hInv.2.2.2 c hcmem hclive).2 hsec)
    refine ⟨p, hpmem, ?_, hplive, hpprim⟩
    rw [hplink] at hf
    exact (Option.some_injective _ hf)

/-- If some row carries the wanted id, `findContactById` succeeds with a row
of that id. -/
theorem findContactById_of_mem {s : Store} {p : Contact} (hp : p ∈ s.contacts) :
    ∃ c, findContactById p.id s = some c ∧ c ∈ s.contacts ∧ c.id = p.id := by
  cases hf : findContactById p.id s with
  | some c =>
      refine ⟨c, rfl, List.mem_of_find?_eq_some hf, ?_⟩
      have := List.find?_some hf
      simpa using this
  | none =>
      rw [findContactById, List.find?_eq_none] at hf
      exact absurd (by simp) (hf p hp)

/-! ## C8: no match → one new primary, singleton cluster -/

/-- **C8.** When the normalized email and phone match no live row, `reconcile`
creates exactly one new contact carrying the given email/phone with
`linkedId = null` and `linkPrecedence = primary`, and returns it as a
singleton cluster with an empty secondary-id list. -/
theorem c8_no_match_new_primary (e ph : Option String) (s : Store)
    (h : ∀ c ∈ s.contacts, matchesQuery e ph c = false) :
    reconcile e ph s =
      (.ok (buildResponse (createContact e ph none .primary s).1 []),
        (createContact e ph none .primary s).2) ∧
    (createContact e ph none .primary s).2.contacts
        = s.contacts ++ [(createContact e ph none .primary s).1] ∧
    (createContact e ph none .primary s).1.linkedId = none ∧
    (createContact e ph none .primary s).1.linkPrecedence = .primary ∧
    (createContact e ph none .primary s).1.email = e ∧
    (createContact e ph none .primary s).1.phoneNumber = ph ∧
    (buildResponse (createContact e ph none .primary s).1 []).secondaryContactIds = [] := by
  have hmatch : findContactsByEmailOrPhone e ph s = [] := by
    rw [findContactsByEmailOrPhone]
    by_cases hg : (truthy e || truthy ph) = true
    · rw [if_pos hg]
      have hfil : s.contacts.filter (matchesQuery e ph) = [] :=
        List.filter_eq_nil_iff.mpr (fun c hc => by rw [h c hc]; simp)
      rw [hfil]
      rfl
    · rw [if_neg hg]
  refine ⟨?_, rfl, rfl, rfl, rfl, rfl, rfl⟩
  unfold reconcile
  rw [hmatch]

/-- Closed instance of C8 on an empty table. -/
theorem c8_no_match_new_primary_witness :
    (∀ c ∈ (⟨[], 1, 5⟩ : Store).contacts,
        matchesQuery (some "a@x.com") (some "1") c = false) ∧
    reconcile (some "a@x.com") (some "1") (⟨[], 1, 5⟩ : Store) =
      (.ok (buildResponse
          (createContact (some "a@x.com") (some "1") none .primary ⟨[], 1, 5⟩).1 []),
        (createContact (some "a@x.com") (some "1") none .primary ⟨[], 1, 5⟩).2) :=
  ⟨by decide, (c8_no_match_new_primary (some "a@x.com") (some "1") ⟨[], 1, 5⟩ (by decide)).1⟩

/-! ## C2: behaviour when the resolved primary cannot be loaded -/

/-- A table where a live secondary points at a soft-deleted primary. -/
def softDeletedPrimaryStore : Store :=
  { contacts :=
      [ { id := 1, email := some "a@x.com", phoneNumber := none, linkedId := none,
          linkPrecedence := .primary, createdAt := 10, deletedAt := some 50 },
        { id := 2, email := some "b@x.com", phoneNumber := some "7", linkedId := some 1,
          linkPrecedence := .secondary, createdAt := 20, deletedAt := none } ]
    nextId := 3
    now := 30 }

/-- **C2, counterexample.** The claim asserts failure whenever the resolved
primary cannot be loaded as a live (non-deleted) contact.  Here step 1 matches
a live secondary whose primary (id 1) is soft-deleted, yet `reconcile`
succeeds: `findContactById` carries no `deletedAt` filter, so the deleted
primary is loaded and the engine silently builds a response. -/
theorem c2_counterexample_soft_deleted :
    findContactsByEmailOrPhone (some "b@x.com") none softDeletedPrimaryStore ≠ [] ∧
    resolvePrimaryIds
      (findContactsByEmailOrPhone (some "b@x.com") none softDeletedPrimaryStore) = [1] ∧
    (∀ c ∈ softDeletedPrimaryStore.contacts, c.id = 1 → c.deletedAt ≠ none) ∧
    (reconcile (some "b@x.com") none softDeletedPrimaryStore).1.isOk = true := by
  decide

/-- **C2, amended.** The engine fails with the internal-consistency error
exactly when the resolved primary id has no row at all (soft-deleted rows are
still loaded by the by-id lookup and processing continues silently). -/
theorem c2_amended_missing_primary_errors (e ph : Option String) (s : Store) (pid : Nat)
    (h1 : findContactsByEmailOrPhone e ph s ≠ [])
    (h2 : resolvePrimaryIds (findContactsByEmailOrPhone e ph s) = [pid])
    (h3 : ∀ c ∈ s.contacts, c.id ≠ pid) :
    reconcile e ph s = (.error ("Primary contact " ++ toString pid ++ " not found"), s) := by
  obtain ⟨m, ms, hm⟩ : ∃ m ms, findContactsByEmailOrPhone e ph s = m :: ms := by
    cases hmm : findContactsByEmailOrPhone e ph s with
    | nil => exact absurd hmm h1
    | cons m ms => exact ⟨m, ms, rfl⟩
  have hfind : findContactById pid s = none := by
    rw [findContactById, List.find?_eq_none]
    intro c hc
    simp [h3 c hc]
  rw [hm] at h2
  unfold reconcile
  rw [hm]
  dsimp only
  rw [h2]
  simp [gatherAllLinked, hfind]

/-- A table holding only a live secondary whose `linkedId` points at a
non-existent row. -/
def danglingSecondaryStore : Store :=
  { contacts :=
      [ { id := 2, email := some "b@x.com", phoneNumber := none, linkedId := some 1,
          linkPrecedence := .secondary, createdAt := 20, deletedAt := none } ]
    nextId := 3
    now := 30 }

/-- Closed instance of amended C2 on a dangling secondary. -/
theorem c2_amended_witness :
    findContactsByEmailOrPhone (some "b@x.com") none danglingSecondaryStore ≠ [] ∧
    reconcile (some "b@x.com") none danglingSecondaryStore =
      (.error ("Primary contact " ++ toString 1 ++ " not found"), danglingSecondaryStore) :=
  ⟨by decide, c2_amended_missing_primary_errors (some "b@x.com") none danglingSecondaryStore 1
    (by decide) (by decide) (by decide)⟩

/-! ## C3: exact duplicates write nothing and are idempotent -/

/-- **C3.** When the request's normalized email and phone both already occur
in the (single) matched cluster, `reconcile` writes nothing: the store is
returned unchanged, so repeating the identical request yields the identical
response and the row count does not grow. -/
theorem c3_exact_duplicate_idempotent (e ph : Option String) (s : Store) (pid : Nat)
    (hInv : Inv s)
    (h1 : findContactsByEmailOrPhone e ph s ≠ [])
    (h2 : resolvePrimaryIds (findContactsByEmailOrPhone e ph s) = [pid])
    (hdup : ∀ l, gatherAllLinked pid s = .ok l →
        (truthy e = true → l.any (fun c => c.email == e) = true) ∧
        (truthy ph = true → l.any (fun c => c.phoneNumber == ph) = true)) :
    ∃ r, reconcile e ph s = (.ok r, s) ∧
      reconcile e ph (reconcile e ph s).2 = (.ok r, s) ∧
      (reconcile e ph s).2.contacts.length = s.contacts.length := by
  obtain ⟨m, ms, hm⟩ : ∃ m ms, findContactsByEmailOrPhone e ph s = m :: ms := by
    cases hmm : findContactsByEmailOrPhone e ph s with
    | nil => exact absurd hmm h1
    | cons m ms => exact ⟨m, ms, rfl⟩
  have hpid : pid ∈ resolvePrimaryIds (findContactsByEmailOrPhone e ph s) := by
    rw [h2]; exact List.mem_singleton.mpr rfl
  obtain ⟨p, hpmem, hpid', hplive, hpprim⟩ := resolved_is_live_primary hInv hpid
  obtain ⟨c0, hc0find, hc0mem, hc0id⟩ := findContactById_of_mem hpmem
  rw [hpid'] at hc0find hc0id
  have hgather : gatherAllLinked pid s = .ok (c0 :: findSecondariesByPrimaryId pid s) := by
    rw [gatherAllLinked, hc0find]
  obtain ⟨hE, hP⟩ := hdup _ hgather
  have hnew : (truthy e && !((c0 :: findSecondariesByPrimaryId pid s).any fun c => c.email == e)
      || truthy ph && !((c0 :: findSecondariesByPrimaryId pid s).any fun c => c.phoneNumber == ph))
      = false := by
    cases hte : truthy e with
    | false =>
        cases htp : truthy ph with
        | false => simp
        | true => simp [hP htp]
    | true =>
        cases htp : truthy ph with
        | false => simp [hE hte]
        | true => simp [hE hte, hP htp]
  rw [hm] at h2
  have hstep : reconcile e ph s =
      (.ok (buildResponse c0
        ((c0 :: findSecondariesByPrimaryId pid s).filter (fun c => !(c.id == pid)))), s) := by
    unfold reconcile
    rw [hm]
    dsimp only
    rw [h2]
    dsimp only
    simp only [List.isEmpty_nil]
    rw [if_pos trivial]
    dsimp only
    rw [hgather]
    dsimp only
    rw [hnew]
    rw [if_neg (by simp)]
    dsimp only
    rw [List.find?_cons_of_pos _ (by simp [hc0id])]
  refine ⟨_, hstep, ?_, ?_⟩
  · rw [hstep]
    exact hstep
  · rw [hstep]

/-- A one-row table used as the closed C3 instance. -/
def oneRowStore : Store :=
  ⟨[⟨1, some "a@x.com", some "1", none, .primary, 10, none⟩], 2, 11⟩

/-- Closed instance of C3: `oneRowStore` queried with its own email and
phone. -/
theorem c3_exact_duplicate_witness :
    Inv oneRowStore ∧
    ∃ r, reconcile (some "a@x.com") (some "1") oneRowStore = (.ok r, oneRowStore) ∧
      reconcile (some "a@x.com") (some "1")
          (reconcile (some "a@x.com") (some "1") oneRowStore).2 = (.ok r, oneRowStore) ∧
      (reconcile (some "a@x.com") (some "1") oneRowStore).2.contacts.length
          = oneRowStore.contacts.length :=
  ⟨by decide,
    c3_exact_duplicate_idempotent (some "a@x.com") (some "1") oneRowStore 1
      (by decide) (by decide) (by decide)
      (by
        intro l hl
        have hg : gatherAllLinked 1 oneRowStore =
            .ok [⟨1, some "a@x.com", some "1", none, .primary, 10, none⟩] := by rfl
        rw [hg] at hl
        injection hl with h
        subst h
        exact ⟨fun _ => by decide, fun _ => by decide⟩)⟩

/-! ## Merge machinery (C1, C6) -/

theorem Inv.bounds {s : Store} (h : Inv s) :
    ∀ c ∈ s.contacts, c.id < s.nextId ∧ c.createdAt < s.now := h.1

theorem Inv.idNodup {s : Store} (h : Inv s) : (s.contacts.map (·.id)).Nodup := h.2.1

theorem Inv.mono {s : Store} (h : Inv s) :
    ∀ c ∈ s.contacts, ∀ d ∈ s.contacts, c.id < d.id → c.createdAt < d.createdAt := h.2.2.1

theorem Inv.star {s : Store} (h : Inv s) :
    ∀ c ∈ s.contacts, c.deletedAt = none →
      (c.linkPrecedence = .primary → c.linkedId = none) ∧
      (c.linkPrecedence = .secondary → ∃ p ∈ s.contacts, p.deletedAt = none ∧
         p.linkPrecedence = .primary ∧ c.linkedId = some p.id ∧ p.id < c.id) := h.2.2.2

/-- The net effect on one row of re-linking loser `l`'s secondaries to `v` and
then demoting `l` itself. -/
def passTransform (l v : Nat) (c : Contact) : Contact :=
  if c.id = l then { c with linkedId := some v, linkPrecedence := .secondary }
  else if c.deletedAt = none ∧ c.linkedId = some l then { c with linkedId := some v }
  else c

theorem passTransform_fields (l v : Nat) (c : Contact) :
    (passTransform l v c).id = c.id ∧ (passTransform l v c).createdAt = c.createdAt ∧
    (passTransform l v c).deletedAt = c.deletedAt ∧ (passTransform l v c).email = c.email ∧
    (passTransform l v c).phoneNumber = c.phoneNumber := by
  unfold passTransform
  split
  · exact ⟨rfl, rfl, rfl, rfl, rfl⟩
  · split
    · exact ⟨rfl, rfl, rfl, rfl, rfl⟩
    · exact ⟨rfl, rfl, rfl, rfl, rfl⟩

/-- One loser pass (`relinkSecondaries` then `demotePrimaryToSecondary`)
computes the per-row `passTransform`, provided the loser's row exists. -/
theorem relink_demote_eq (l v : Nat) (s : Store) (hInv : Inv s)
    (hrow : ∃ c ∈ s.contacts, c.id = l ∧ c.deletedAt = none ∧ c.linkPrecedence = .primary) :
    demotePrimaryToSecondary l v (relinkSecondaries l v s) =
      .ok { s with contacts := s.contacts.map (passTransform l v) } := by
  obtain ⟨row, hrowmem, hrowid, hrowlive, hrowprim⟩ := hrow
  rw [relinkSecondaries, demotePrimaryToSecondary]
  have hany : ((s.contacts.map fun c =>
      if c.linkedId == some l && c.deletedAt == none then { c with linkedId := some v }
      else c).any fun c => c.id == l) = true := by
    rw [List.any_eq_true]
    refine ⟨_, List.mem_map_of_mem _ hrowmem, ?_⟩
    by_cases hc : (row.linkedId == some l && row.deletedAt == none) = true <;>
      simp [hc, hrowid]
  rw [if_pos hany]
  refine congrArg Except.ok ?_
  have hshape : ∀ cs : List Contact, cs = s.contacts.map (passTransform l v) →
      ({ contacts := cs, nextId := s.nextId, now := s.now } : Store) =
        { s with contacts := s.contacts.map (passTransform l v) } := by
    intro cs h
    rw [h]
  apply hshape
  rw [List.map_map]
  refine List.map_congr_left ?_
  intro c hc
  simp only [Function.comp_apply]
  by_cases hcid : c.id = l
  · have hceq : c = row := id_inj hInv hc hrowmem (by rw [hcid, hrowid])
    have hnone : c.linkedId = none := by
      subst hceq
      exact (hInv.star c hc hrowlive).1 hrowprim
    have hb1 : (c.linkedId == some l && c.deletedAt == none) = false := by
      simp [hnone]
    rw [hb1]
    simp only [Bool.false_eq_true, if_false]
    have hb2 : (c.id == l) = true := by simp [hcid]
    rw [hb2]
    simp only [if_true]
    rw [passTransform, if_pos hcid]
  · by_cases hrel : c.deletedAt = none ∧ c.linkedId = some l
    · have hb1 : (c.linkedId == some l && c.deletedAt == none) = true := by
        simp [hrel.1, hrel.2]
      rw [hb1]
      simp only [if_true]
      have hb2 : (({ c with linkedId := some v } : Contact).id == l) = false := by
        simp [hcid]
      rw [hb2]
      simp only [Bool.false_eq_true, if_false]
      rw [passTransform, if_neg hcid, if_pos hrel]
    · have hb1 : (c.linkedId == some l && c.deletedAt == none) = false := by
        rcases Decidable.not_and_iff_or_not.mp hrel with hmiss | hmiss <;> simp [hmiss]
      rw [hb1]
      simp only [Bool.false_eq_true, if_false]
      have hb2 : (c.id == l) = false := by simp [hcid]
      rw [hb2]
      simp only [Bool.false_eq_true, if_false]
      rw [passTransform, if_neg hcid, if_neg hrel]

/-- Net effect of the whole merge loop on one row: losers are demoted under
the survivor, live rows linked to a loser are re-linked to the survivor. -/
def mergeTransform (v : Nat) (losers : List Nat) (c : Contact) : Contact :=
  if c.id ∈ losers then { c with linkedId := some v, linkPrecedence := .secondary }
  else if c.deletedAt = none ∧ (∃ l ∈ losers, c.linkedId = some l) then
    { c with linkedId := some v }
  else c

theorem mergeTransform_nil (v : Nat) (c : Contact) : mergeTransform v [] c = c := by
  rw [mergeTransform, if_neg (by simp), if_neg (by simp)]

theorem mergeTransform_fields (v : Nat) (losers : List Nat) (c : Contact) :
    (mergeTransform v losers c).id = c.id ∧
    (mergeTransform v losers c).createdAt = c.createdAt ∧
    (mergeTransform v losers c).deletedAt = c.deletedAt ∧
    (mergeTransform v losers c).email = c.email ∧
    (mergeTransform v losers c).phoneNumber = c.phoneNumber := by
  unfold mergeTransform
  split
  · exact ⟨rfl, rfl, rfl, rfl, rfl⟩
  · split
    · exact ⟨rfl, rfl, rfl, rfl, rfl⟩
    · exact ⟨rfl, rfl, rfl, rfl, rfl⟩

/-- One pass for the head loser composed with the remaining losers' transform
equals the transform for the whole loser list. -/
theorem mergeTransform_pass (v l : Nat) (ls : List Nat) (s : Store) (hInv : Inv s)
    (hrows : ∀ l' ∈ l :: ls, ∃ c ∈ s.contacts,
        c.id = l' ∧ c.deletedAt = none ∧ c.linkPrecedence = .primary)
    (hvlt : ∀ l' ∈ l :: ls, v < l')
    (hnd : (l :: ls).Nodup)
    (c : Contact) (hc : c ∈ s.contacts) :
    mergeTransform v ls (passTransform l v c) = mergeTransform v (l :: ls) c := by
  have hlnotmem : l ∉ ls := (List.nodup_cons.mp hnd).1
  have hvnotls : v ∉ ls := fun hvm =>
    absurd (hvlt v (List.mem_cons_of_mem _ hvm)) (lt_irrefl v)
  by_cases hcid : c.id = l
  · -- `c` is the head loser's own row: a live primary with no link
    obtain ⟨row, hrmem, hrid, hrlive, hrprim⟩ := hrows l (List.mem_cons_self _ _)
    have hceq : c = row := id_inj hInv hc hrmem (by rw [hcid, hrid])
    have hL : mergeTransform v ls (passTransform l v c) =
        { c with linkedId := some v, linkPrecedence := .secondary } := by
      rw [passTransform, if_pos hcid, mergeTransform, if_neg ?hn1, if_neg ?hn2]
      case hn1 => simpa [hcid] using hlnotmem
      case hn2 =>
        rintro ⟨-, l', hl', he⟩
        have he' : some v = some l' := he
        obtain rfl := Option.some_injective _ he'
        exact hvnotls hl'
    have hR : mergeTransform v (l :: ls) c =
        { c with linkedId := some v, linkPrecedence := .secondary } := by
      rw [mergeTransform, if_pos (by simp [hcid])]
    rw [hL, hR]
  · by_cases hmem : c.id ∈ ls
    · -- `c` is a later loser's row: a live primary with no link
      obtain ⟨row, hrmem, hrid, hrlive, hrprim⟩ := hrows c.id (List.mem_cons_of_mem _ hmem)
      have hceq : c = row := id_inj hInv hc hrmem (by rw [hrid])
      have hclive : c.deletedAt = none := by rw [hceq]; exact hrlive
      have hcprim : c.linkPrecedence = .primary := by rw [hceq]; exact hrprim
      have hcnone : c.linkedId = none := (hInv.star c hc hclive).1 hcprim
      have hp : passTransform l v c = c := by
        rw [passTransform, if_neg hcid, if_neg ?_]
        rintro ⟨-, he⟩
        rw [hcnone] at he
        exact Option.noConfusion he
      rw [hp, mergeTransform, if_pos hmem, mergeTransform,
        if_pos (List.mem_cons_of_mem _ hmem)]
    · by_cases hrel : c.deletedAt = none ∧ c.linkedId = some l
      · have hp : passTransform l v c = { c with linkedId := some v } := by
          rw [passTransform, if_neg hcid, if_pos hrel]
        rw [hp]
        have hL : mergeTransform v ls { c with linkedId := some v } =
            { c with linkedId := some v } := by
          rw [mergeTransform, if_neg (by simpa using hmem), if_neg ?_]
          rintro ⟨-, l', hl', he⟩
          have he' : some v = some l' := he
          obtain rfl := Option.some_injective _ he'
          exact hvnotls hl'
        have hR : mergeTransform v (l :: ls) c = { c with linkedId := some v } := by
          rw [mergeTransform,
            if_neg (fun h => (List.mem_cons.mp h).elim hcid hmem),
            if_pos ⟨hrel.1, l, List.mem_cons_self _ _, hrel.2⟩]
        rw [hL, hR]
      · have hp : passTransform l v c = c := by
          rw [passTransform, if_neg hcid, if_neg hrel]
        rw [hp]
        by_cases hrel2 : c.deletedAt = none ∧ ∃ l' ∈ ls, c.linkedId = some l'
        · obtain ⟨hlive, l', hl', he⟩ := hrel2
          rw [mergeTransform, if_neg hmem, if_pos ⟨hlive, l', hl', he⟩, mergeTransform,
            if_neg (fun h => (List.mem_cons.mp h).elim hcid hmem),
            if_pos ⟨hlive, l', List.mem_cons_of_mem _ hl', he⟩]
        · rw [mergeTransform, if_neg hmem, if_neg hrel2, mergeTransform,
            if_neg (fun h => (List.mem_cons.mp h).elim hcid hmem), if_neg ?_]
          rintro ⟨hlive, l', hl', he⟩
          rcases List.mem_cons.mp hl' with rfl | hl''
          · exact hrel ⟨hlive, he⟩
          · exact hrel2 ⟨hlive, l', hl'', he⟩

/-- A single loser pass preserves the invariant. -/
theorem Inv_pass (s : Store) (v l : Nat) (hInv : Inv s)
    (hvrow : ∃ c ∈ s.contacts, c.id = v ∧ c.deletedAt = none ∧ c.linkPrecedence = .primary)
    (hlrow : ∃ c ∈ s.contacts, c.id = l ∧ c.deletedAt = none ∧ c.linkPrecedence = .primary)
    (hvl : v < l) :
    Inv { s with contacts := s.contacts.map (passTransform l v) } := by
  obtain ⟨vrow, hvmem, hvid, hvlive, hvprim⟩ := hvrow
  obtain ⟨lrow, hlmem, hlid, hllive, hlprim⟩ := hlrow
  have hvnone : vrow.linkedId = none := (hInv.star vrow hvmem hvlive).1 hvprim
  have hvfix : passTransform l v vrow = vrow := by
    rw [passTransform, if_neg (by rw [hvid]; omega), if_neg ?_]
    rintro ⟨-, he⟩
    rw [hvnone] at he
    exact Option.noConfusion he
  have hvmem' : vrow ∈ s.contacts.map (passTransform l v) := by
    have := List.mem_map_of_mem (passTransform l v) hvmem
    rwa [hvfix] at this
  refine ⟨?_, ?_, ?_, ?_⟩
  · intro c' hc'
    obtain ⟨c, hc, rfl⟩ := List.mem_map.mp hc'
    have hf := passTransform_fields l v c
    rw [hf.1, hf.2.1]
    exact hInv.bounds c hc
  · show ((s.contacts.map (passTransform l v)).map (·.id)).Nodup
    have hids : (s.contacts.map (passTransform l v)).map (·.id) = s.contacts.map (·.id) := by
      rw [List.map_map]
      exact List.map_congr_left (fun c _ => (passTransform_fields l v c).1)
    rw [hids]
    exact hInv.idNodup
  · intro c' hc' d' hd' hlt
    obtain ⟨c, hc, rfl⟩ := List.mem_map.mp hc'
    obtain ⟨d, hd, rfl⟩ := List.mem_map.mp hd'
    rw [(passTransform_fields l v c).1, (passTransform_fields l v d).1] at hlt
    rw [(passTransform_fields l v c).2.1, (passTransform_fields l v d).2.1]
    exact hInv.mono c hc d hd hlt
  · intro c' hc' hlive'
    obtain ⟨c, hc, rfl⟩ := List.mem_map.mp hc'
    have hclive : c.deletedAt = none := by
      rw [(passTransform_fields l v c).2.2.1] at hlive'
      exact hlive'
    by_cases hcid : c.id = l
    · have hceq : c = lrow := id_inj hInv hc hlmem (by rw [hcid, hlid])
      have hcprim : c.linkPrecedence = .primary := by rw [hceq]; exact hlprim
      have hpt : passTransform l v c =
          { c with linkedId := some v, linkPrecedence := .secondary } := by
        rw [passTransform, if_pos hcid]
      rw [hpt]
      constructor
      · intro hp
        simp at hp
      · intro _
        refine ⟨vrow, hvmem', hvlive, hvprim, ?_, ?_⟩
        · show some v = some vrow.id
          rw [hvid]
        · show vrow.id < c.id
          rw [hvid, hcid]
          exact hvl
    · by_cases hrel : c.deletedAt = none ∧ c.linkedId = some l
      · have hpt : passTransform l v c = { c with linkedId := some v } := by
          rw [passTransform, if_neg hcid, if_pos hrel]
        rw [hpt]
        constructor
        · intro hp
          have hp' : c.linkPrecedence = .primary := hp
          have hcnone : c.linkedId = none := (hInv.star c hc hclive).1 hp'
          rw [hcnone] at hrel
          exact absurd hrel.2 (fun h => Option.noConfusion h)
        · intro hs
          have hs' : c.linkPrecedence = .secondary := hs
          obtain ⟨p0, hp0mem, hp0live, hp0prim, hp0link, hp0lt⟩ :=
            (hInv.star c hc hclive).2 hs'
          have hp0id : p0.id = l := by
            rw [hrel.2] at hp0link
            exact Option.some_injective _ hp0link.symm
          refine ⟨vrow, hvmem', hvlive, hvprim, ?_, ?_⟩
          · show some v = some vrow.id
            rw [hvid]
          · show vrow.id < c.id
            rw [hvid]
            have : l < c.id := hp0id ▸ hp0lt
            omega
      · have hpt : passTransform l v c = c := by
          rw [passTransform, if_neg hcid, if_neg hrel]
        rw [hpt]
        constructor
        · intro hp
          exact (hInv.star c hc hclive).1 hp
        · intro hs
          obtain ⟨p0, hp0mem, hp0live, hp0prim, hp0link, hp0lt⟩ :=
            (hInv.star c hc hclive).2 hs
          have hp0nid : p0.id ≠ l := by
            intro heq
            exact hrel ⟨hclive, by rw [hp0link, heq]⟩
          have hp0none : p0.linkedId = none := (hInv.star p0 hp0mem hp0live).1 hp0prim
          have hp0fix : passTransform l v p0 = p0 := by
            rw [passTransform, if_neg hp0nid, if_neg ?_]
            rintro ⟨-, he⟩
            rw [hp0none] at he
            exact Option.noConfusion he
          refine ⟨p0, ?_, hp0live, hp0prim, hp0link, hp0lt⟩
          have := List.mem_map_of_mem (passTransform l v) hp0mem
          rwa [hp0fix] at this

/-- Everything the merge loop needs of its inputs: a well-formed store, a
live primary row for the survivor and for every loser, losers strictly above
the survivor, and no duplicated loser. -/
def MergeHyp (s : Store) (v : Nat) (losers : List Nat) : Prop :=
  Inv s ∧
  (∃ c ∈ s.contacts, c.id = v ∧ c.deletedAt = none ∧ c.linkPrecedence = .primary) ∧
  (∀ l ∈ losers, ∃ c ∈ s.contacts,
      c.id = l ∧ c.deletedAt = none ∧ c.linkPrecedence = .primary) ∧
  (∀ l ∈ losers, v < l) ∧
  losers.Nodup

theorem mergeHyp_tail (s : Store) (v l : Nat) (ls : List Nat)
    (h : MergeHyp s v (l :: ls)) :
    MergeHyp { s with contacts := s.contacts.map (passTransform l v) } v ls := by
  obtain ⟨hInv, hv, hrows, hlt, hnd⟩ := h
  have hInv' := Inv_pass s v l hInv hv (hrows l (List.mem_cons_self _ _))
    (hlt l (List.mem_cons_self _ _))
  refine ⟨hInv', ?_, ?_, fun l' hl' => hlt l' (List.mem_cons_of_mem _ hl'),
    (List.nodup_cons.mp hnd).2⟩
  · obtain ⟨vrow, hvmem, hvid, hvlive, hvprim⟩ := hv
    have hvnone : vrow.linkedId = none := (hInv.star vrow hvmem hvlive).1 hvprim
    have hvfix : passTransform l v vrow = vrow := by
      rw [passTransform, if_neg (by rw [hvid]; have := hlt l (List.mem_cons_self _ _); omega),
        if_neg ?_]
      rintro ⟨-, he⟩
      rw [hvnone] at he
      exact Option.noConfusion he
    refine ⟨vrow, ?_, hvid, hvlive, hvprim⟩
    have := List.mem_map_of_mem (passTransform l v) hvmem
    rwa [hvfix] at this
  · intro l' hl'
    obtain ⟨row, hrmem, hrid, hrlive, hrprim⟩ := hrows l' (List.mem_cons_of_mem _ hl')
    have hrnone : row.linkedId = none := (hInv.star row hrmem hrlive).1 hrprim
    have hrnid : row.id ≠ l := by
      rw [hrid]
      exact fun heq => (List.nodup_cons.mp hnd).1 (heq ▸ hl')
    have hrfix : passTransform l v row = row := by
      rw [passTransform, if_neg hrnid, if_neg ?_]
      rintro ⟨-, he⟩
      rw [hrnone] at he
      exact Option.noConfusion he
    refine ⟨row, ?_, hrid, hrlive, hrprim⟩
    have := List.mem_map_of_mem (passTransform l v) hrmem
    rwa [hrfix] at this

/-- The table after the merge loop. -/
def mergedStore (v : Nat) (losers : List Nat) (s : Store) : Store :=
  { s with contacts := s.contacts.map (mergeTransform v losers) }

/-- The merge loop succeeds and computes `mergeTransform` row-wise, and the
resulting table is again invariant-respecting. -/
theorem mergeLoop_ok (v : Nat) (losers : List Nat) :
    ∀ s : Store, MergeHyp s v losers →
      mergeLoop v losers s = .ok (mergedStore v losers s) ∧
      Inv (mergedStore v losers s) := by
  induction losers with
  | nil =>
      intro s h
      have hms : mergedStore v [] s = s := by
        rw [mergedStore]
        have hmap : s.contacts.map (mergeTransform v []) = s.contacts := by
          rw [List.map_congr_left (fun c _ => mergeTransform_nil v c)]
          simp
        rw [hmap]
      rw [hms]
      exact ⟨rfl, h.1⟩
  | cons l ls ih =>
      intro s h
      obtain ⟨hInv, hv, hrows, hlt, hnd⟩ := h
      have hpass := relink_demote_eq l v s hInv (hrows l (List.mem_cons_self _ _))
      have htail := mergeHyp_tail s v l ls ⟨hInv, hv, hrows, hlt, hnd⟩
      obtain ⟨hrun, hinv'⟩ := ih _ htail
      have hcompose :
          mergedStore v ls { s with contacts := s.contacts.map (passTransform l v) } =
            mergedStore v (l :: ls) s := by
        rw [mergedStore, mergedStore]
        have hshape : ∀ cs : List Contact,
            cs = s.contacts.map (mergeTransform v (l :: ls)) →
            ({ contacts := cs, nextId := s.nextId, now := s.now } : Store) =
              { s with contacts := s.contacts.map (mergeTransform v (l :: ls)) } :=
          fun cs hcs => by rw [hcs]
        apply hshape
        rw [List.map_map]
        exact List.map_congr_left
          (fun c hc => mergeTransform_pass v l ls s hInv hrows hlt hnd c hc)
      refine ⟨?_, ?_⟩
      · rw [mergeLoop, hpass]
        dsimp only
        rw [hrun, hcompose]
      · rw [← hcompose]
        exact hinv'

/-- The list of resolved primary ids is strictly ascending. -/
theorem resolvePrimaryIds_sorted (contacts : List Contact) :
    (resolvePrimaryIds contacts).Pairwise (· < ·) :=
  sortNat_pairwise_lt (List.nodup_dedup _)

/-- Inserting a fresh row preserves the invariant, provided its linkage is
star-shaped: no link for a primary, a link to an existing live primary for a
secondary. -/
theorem Inv_create (e ph : Option String) (lnk : Option Nat) (lp : LinkPrecedence)
    (s : Store) (hInv : Inv s)
    (hstar : (lp = .primary → lnk = none) ∧
      (lp = .secondary → ∃ p ∈ s.contacts, p.deletedAt = none ∧
        p.linkPrecedence = .primary ∧ lnk = some p.id)) :
    Inv (createContact e ph lnk lp s).2 := by
  refine ⟨?_, ?_, ?_, ?_⟩
  · intro c hc
    rcases List.mem_append.mp hc with hc | hc
    · have hb := hInv.bounds c hc
      exact ⟨by show c.id < s.nextId + 1; omega, by show c.createdAt < s.now + 1; omega⟩
    · rcases List.mem_singleton.mp hc with rfl
      exact ⟨by show s.nextId < s.nextId + 1; omega, by show s.now < s.now + 1; omega⟩
  · show ((s.contacts ++
        [({ id := s.nextId, email := e, phoneNumber := ph, linkedId := lnk,
            linkPrecedence := lp, createdAt := s.now, deletedAt := none } : Contact)]).map
        (·.id)).Nodup
    rw [List.map_append, List.nodup_append]
    refine ⟨hInv.idNodup, List.nodup_singleton _, ?_⟩
    intro a ha hb
    obtain ⟨c, hc, rfl⟩ := List.mem_map.mp ha
    have heq : c.id = s.nextId := by simpa using hb
    have := (hInv.bounds c hc).1
    omega
  · intro c hc d hd hlt
    rcases List.mem_append.mp hc with hc | hc <;> rcases List.mem_append.mp hd with hd | hd
    · exact hInv.mono c hc d hd hlt
    · rcases List.mem_singleton.mp hd with rfl
      show c.createdAt < s.now
      exact (hInv.bounds c hc).2
    · rcases List.mem_singleton.mp hc with rfl
      have hdb := (hInv.bounds d hd).1
      have hlt' : s.nextId < d.id := hlt
      omega
    · rcases List.mem_singleton.mp hc with rfl
      rcases List.mem_singleton.mp hd with rfl
      exact absurd hlt (lt_irrefl _)
  · intro c hc hlive
    rcases List.mem_append.mp hc with hc | hc
    · obtain ⟨hstar1, hstar2⟩ := hInv.star c hc hlive
      refine ⟨hstar1, fun hs => ?_⟩
      obtain ⟨p, hp, h1, h2, h3, h4⟩ := hstar2 hs
      exact ⟨p, List.mem_append.mpr (Or.inl hp), h1, h2, h3, h4⟩
    · rcases List.mem_singleton.mp hc with rfl
      constructor
      · intro hp
        exact hstar.1 hp
      · intro hs
        obtain ⟨p, hp, h1, h2, h3⟩ := hstar.2 hs
        refine ⟨p, List.mem_append.mpr (Or.inl hp), h1, h2, h3, ?_⟩
        show p.id < s.nextId
        exact (hInv.bounds p hp).1

theorem Inv_createPrimary (e ph : Option String) (s : Store) (hInv : Inv s) :
    Inv (createContact e ph none .primary s).2 :=
  Inv_create e ph none .primary s hInv ⟨fun _ => rfl, fun h => nomatch h⟩

theorem Inv_createSecondary (e ph : Option String) (pid : Nat) (s : Store) (hInv : Inv s)
    (hp : ∃ p ∈ s.contacts, p.id = pid ∧ p.deletedAt = none ∧ p.linkPrecedence = .primary) :
    Inv (createContact e ph (some pid) .secondary s).2 := by
  refine Inv_create e ph (some pid) .secondary s hInv ⟨?_, ?_⟩
  · intro hcontra
    exact absurd hcontra (by decide)
  · intro _
    obtain ⟨p, hpm, hpid, hlive, hprim⟩ := hp
    exact ⟨p, hpm, hlive, hprim, by rw [hpid]⟩

/-- The survivor's row is unchanged by the merge loop. -/
theorem vrow_in_mergedStore (v : Nat) (losers : List Nat) (s : Store)
    (h : MergeHyp s v losers) :
    ∃ c ∈ (mergedStore v losers s).contacts,
      c.id = v ∧ c.deletedAt = none ∧ c.linkPrecedence = .primary := by
  obtain ⟨hInv, ⟨vrow, hvmem, hvid, hvlive, hvprim⟩, -, hlt, -⟩ := h
  have hvnone : vrow.linkedId = none := (hInv.star vrow hvmem hvlive).1 hvprim
  have hfix : mergeTransform v losers vrow = vrow := by
    rw [mergeTransform, if_neg ?hA, if_neg ?hB]
    case hA =>
      intro hmem
      have hlt' := hlt vrow.id hmem
      rw [hvid] at hlt'
      exact absurd hlt' (lt_irrefl v)
    case hB =>
      rintro ⟨-, l', hl', he⟩
      rw [hvnone] at he
      exact Option.noConfusion he
  refine ⟨vrow, ?_, hvid, hvlive, hvprim⟩
  have := List.mem_map_of_mem (mergeTransform v losers) hvmem
  rwa [hfix] at this

/-- **Invariant preservation.** Whatever `reconcile` returns, the resulting
table still satisfies the data-model invariant. -/
theorem reconcile_preserves_Inv (e ph : Option String) (s : Store) (hInv : Inv s)
    (r : Except String ContactResponse) (s' : Store)
    (h : reconcile e ph s = (r, s')) : Inv s' := by
  have htail : ∀ (pid : Nat) (s1 : Store), Inv s1 →
      (∃ p ∈ s1.contacts, p.id = pid ∧ p.deletedAt = none ∧
        p.linkPrecedence = .primary) →
      ∀ (r : Except String ContactResponse) (s' : Store),
        (match gatherAllLinked pid s1 with
          | .error err => ((.error err : Except String ContactResponse), s1)
          | .ok allLinked0 =>
            let emailExists := allLinked0.any (fun c => c.email == e)
            let phoneExists := allLinked0.any (fun c => c.phoneNumber == ph)
            let hasNewInfo := (truthy e && !emailExists) || (truthy ph && !phoneExists)
            let (allLinked, s2) :=
              if hasNewInfo then
                let (secondary, s2) := createContact e ph (some pid) .secondary s1
                (allLinked0 ++ [secondary], s2)
              else (allLinked0, s1)
            match allLinked.find? (fun c => c.id == pid) with
            | none => (.error "TypeError: primary missing from gathered cluster", s2)
            | some primary =>
                (.ok (buildResponse primary (allLinked.filter (fun c => !(c.id == pid)))),
                  s2)) = (r, s') →
        Inv s' := by
    intro pid s1 hInv1 hpid1 r0 s0 h0
    cases hg : gatherAllLinked pid s1 with
    | error err =>
        rw [hg] at h0
        dsimp only at h0
        injection h0 with h1 h2
        subst h2
        exact hInv1
    | ok allL =>
        rw [hg] at h0
        dsimp only at h0
        cases hni : (truthy e && !(allL.any fun c => c.email == e)
            || truthy ph && !(allL.any fun c => c.phoneNumber == ph)) with
        | false =>
            rw [hni] at h0
            simp only [Bool.false_eq_true, if_false] at h0
            cases hfind : allL.find? (fun c => c.id == pid) with
            | none =>
                rw [hfind] at h0
                injection h0 with h1 h2
                subst h2
                exact hInv1
            | some prim =>
                rw [hfind] at h0
                injection h0 with h1 h2
                subst h2
                exact hInv1
        | true =>
            rw [hni] at h0
            rw [if_pos rfl] at h0
            dsimp only [createContact] at h0
            cases hfind : (allL ++
                [({ id := s1.nextId, email := e, phoneNumber := ph, linkedId := some pid,
                    linkPrecedence := .secondary, createdAt := s1.now,
                    deletedAt := none } : Contact)]).find? (fun c => c.id == pid) with
            | none =>
                rw [hfind] at h0
                injection h0 with h1 h2
                subst h2
                exact Inv_createSecondary e ph pid s1 hInv1 hpid1
            | some prim =>
                rw [hfind] at h0
                injection h0 with h1 h2
                subst h2
                exact Inv_createSecondary e ph pid s1 hInv1 hpid1
  unfold reconcile at h
  cases hm : findContactsByEmailOrPhone e ph s with
  | nil =>
      rw [hm] at h
      dsimp only [createContact] at h
      injection h with h1 h2
      subst h2
      exact Inv_createPrimary e ph s hInv
  | cons m ms =>
      rw [hm] at h
      dsimp only at h
      cases hres : resolvePrimaryIds (m :: ms) with
      | nil =>
          rw [hres] at h
          injection h with h1 h2
          subst h2
          exact hInv
      | cons pid rest =>
          rw [hres] at h
          have hpid_mem : pid ∈ resolvePrimaryIds (findContactsByEmailOrPhone e ph s) := by
            rw [hm, hres]
            exact List.mem_cons_self _ _
          obtain ⟨p, hpmem, hpid', hplive, hpprim⟩ := resolved_is_live_primary hInv hpid_mem
          cases rest with
          | nil =>
              simp only [List.isEmpty_nil] at h
              rw [if_pos trivial] at h
              dsimp only at h
              exact htail pid s hInv ⟨p, hpmem, hpid', hplive, hpprim⟩ r s' h
          | cons l ls =>
              have hsorted : (pid :: l :: ls).Pairwise (· < ·) := by
                rw [← hres]
                exact resolvePrimaryIds_sorted _
              have hMH : MergeHyp s pid (l :: ls) := by
                refine ⟨hInv, ⟨p, hpmem, hpid', hplive, hpprim⟩, ?_, ?_, ?_⟩
                · intro l' hl'
                  have hmem' : l' ∈ resolvePrimaryIds (findContactsByEmailOrPhone e ph s) := by
                    rw [hm, hres]
                    exact List.mem_cons_of_mem _ hl'
                  exact resolved_is_live_primary hInv hmem'
                · exact (List.pairwise_cons.mp hsorted).1
                · exact (List.pairwise_cons.mp hsorted).2.imp (fun hab => ne_of_lt hab)
              obtain ⟨hrun, hinvM⟩ := mergeLoop_ok pid (l :: ls) s hMH
              simp only [List.isEmpty_cons] at h
              rw [if_neg (by simp)] at h
              rw [hrun] at h
              dsimp only at h
              exact htail pid (mergedStore pid (l :: ls) s) hinvM
                (vrow_in_mergedStore pid (l :: ls) s hMH) r s' h

/-! ## C6: one primary per cluster, earliest created -/

/-- Undirected linkage edge between live rows. -/
def linkedStep (s : Store) (a b : Contact) : Prop :=
  a ∈ s.contacts ∧ b ∈ s.contacts ∧ a.deletedAt = none ∧ b.deletedAt = none ∧
    (a.linkedId = some b.id ∨ b.linkedId = some a.id)

/-- Two rows belong to the same identity cluster when connected by a chain of
linkage edges. -/
def sameCluster (s : Store) : Contact → Contact → Prop :=
  Relation.ReflTransGen (linkedStep s)

/-- The cluster representative's id as read off one row. -/
def rootId (c : Contact) : Nat :=
  if c.linkPrecedence = .primary then c.id else c.linkedId.getD c.id

theorem rootId_eq_of_linkedStep {s : Store} (hInv : Inv s) {a b : Contact}
    (hab : linkedStep s a b) : rootId a = rootId b := by
  obtain ⟨ha, hb, hla, hlb, hl⟩ := hab
  have key : ∀ x y : Contact, x ∈ s.contacts → y ∈ s.contacts →
      x.deletedAt = none → y.deletedAt = none → x.linkedId = some y.id →
      rootId x = rootId y := by
    intro x y hx hy hlx hly hlink
    have hxsec : x.linkPrecedence = .secondary := by
      cases hxp : x.linkPrecedence
      · have hnone := (hInv.star x hx hlx).1 hxp
        rw [hnone] at hlink
        exact absurd hlink (fun hcon => Option.noConfusion hcon)
      · rfl
    obtain ⟨p, hpmem, hplive, hpprim, hplink, hplt⟩ := (hInv.star x hx hlx).2 hxsec
    have hpy : p.id = y.id := Option.some_injective _ (hplink.symm.trans hlink)
    have hpeq : p = y := id_inj hInv hpmem hy hpy
    have hxnp : x.linkPrecedence ≠ .primary := by
      rw [hxsec]
      decide
    rw [rootId, if_neg hxnp, hlink, rootId, if_pos (hpeq ▸ hpprim)]
    rfl
  rcases hl with hl | hl
  · exact key a b ha hb hla hlb hl
  · exact (key b a hb ha hlb hla hl).symm

theorem rootId_eq_of_sameCluster {s : Store} (hInv : Inv s) {a b : Contact}
    (h : sameCluster s a b) : rootId a = rootId b := by
  induction h with
  | refl => rfl
  | tail _ hbc ih => exact ih.trans (rootId_eq_of_linkedStep hInv hbc)

/-- Each live row's cluster contains exactly one live primary, and that
primary has the earliest `createdAt` in the cluster. -/
def OnePrimaryEarliest (s : Store) : Prop :=
  ∀ c ∈ s.contacts, c.deletedAt = none →
    ∃ p ∈ s.contacts, p.deletedAt = none ∧ p.linkPrecedence = .primary ∧
      sameCluster s c p ∧
      (∀ q ∈ s.contacts, q.deletedAt = none → sameCluster s c q →
        q.linkPrecedence = .primary → q = p) ∧
      (∀ q ∈ s.contacts, q.deletedAt = none → sameCluster s c q →
        p.createdAt ≤ q.createdAt)

theorem Inv_onePrimaryEarliest {s : Store} (hInv : Inv s) : OnePrimaryEarliest s := by
  intro c hc hlive
  have hget : ∃ p ∈ s.contacts, p.deletedAt = none ∧ p.linkPrecedence = .primary ∧
      sameCluster s c p ∧ rootId c = p.id := by
    by_cases hcp : c.linkPrecedence = .primary
    · exact ⟨c, hc, hlive, hcp, Relation.ReflTransGen.refl, by rw [rootId, if_pos hcp]⟩
    · have hcsec : c.linkPrecedence = .secondary := by
        cases hx : c.linkPrecedence
        · exact absurd hx hcp
        · rfl
      obtain ⟨p, hpmem, hplive, hpprim, hplink, hplt⟩ := (hInv.star c hc hlive).2 hcsec
      refine ⟨p, hpmem, hplive, hpprim, ?_, ?_⟩
      · exact Relation.ReflTransGen.single ⟨hc, hpmem, hlive, hplive, Or.inl hplink⟩
      · rw [rootId, if_neg hcp, hplink]
        rfl
  obtain ⟨p, hpmem, hplive, hpprim, hpconn, hproot⟩ := hget
  refine ⟨p, hpmem, hplive, hpprim, hpconn, ?_, ?_⟩
  · intro q hq hqlive hqconn hqprim
    have h1 : rootId c = rootId q := rootId_eq_of_sameCluster hInv hqconn
    have h2 : rootId q = q.id := by rw [rootId, if_pos hqprim]
    exact id_inj hInv hq hpmem (by rw [← h2, ← h1, hproot])
  · intro q hq hqlive hqconn
    have h1 : rootId c = rootId q := rootId_eq_of_sameCluster hInv hqconn
    by_cases hqp : q.linkPrecedence = .primary
    · have h2 : rootId q = q.id := by rw [rootId, if_pos hqp]
      have hqep : q = p := id_inj hInv hq hpmem (by rw [← h2, ← h1, hproot])
      rw [hqep]
    · have hqsec : q.linkPrecedence = .secondary := by
        cases hx : q.linkPrecedence
        · exact absurd hx hqp
        · rfl
      obtain ⟨p0, hp0mem, hp0live, hp0prim, hp0link, hp0lt⟩ :=
        (hInv.star q hq hqlive).2 hqsec
      have h2 : rootId q = p0.id := by
        rw [rootId, if_neg hqp, hp0link]
        rfl
      have hp0p : p0 = p := id_inj hInv hp0mem hpmem (by rw [← h2, ← h1, hproot])
      have hlt : p.id < q.id := hp0p ▸ hp0lt
      exact le_of_lt (hInv.mono p hpmem q hq hlt)

/-- **C6.** Starting from a state satisfying the data-model invariants, any
completed `reconcile` run leaves a state in which, within each connected
identity cluster of live contacts, exactly one contact has
`linkPrecedence = primary`, and it is the cluster member with the earliest
`createdAt`. -/
theorem c6_cluster_one_primary_earliest (e ph : Option String) (s : Store)
    (hInv : Inv s) (r : Except String ContactResponse) (s' : Store)
    (h : reconcile e ph s = (r, s')) :
    OnePrimaryEarliest s' :=
  Inv_onePrimaryEarliest (reconcile_preserves_Inv e ph s hInv r s' h)

/-- Two disjoint one-row clusters, about to be merged by an overlapping
request. -/
def twoPrimaryStore : Store :=
  ⟨[⟨1, some "a@x.com", some "1", none, .primary, 10, none⟩,
    ⟨2, some "c@x.com", some "2", none, .primary, 20, none⟩], 3, 30⟩

/-- Closed instance of C6 on a merging request. -/
theorem c6_cluster_witness :
    Inv twoPrimaryStore ∧
    OnePrimaryEarliest (reconcile (some "a@x.com") (some "2") twoPrimaryStore).2 :=
  ⟨by decide,
    c6_cluster_one_primary_earliest (some "a@x.com") (some "2") twoPrimaryStore (by decide)
      (reconcile (some "a@x.com") (some "2") twoPrimaryStore).1
      (reconcile (some "a@x.com") (some "2") twoPrimaryStore).2 rfl⟩

/-! ## C1: merging demotes losers under the smallest primary -/

/-- After the merge step, the rest of `reconcile` either keeps the table or
appends one secondary row, and an `ok` response carries the resolved primary
id. -/
theorem merge_tail_shape (e ph : Option String) (pid : Nat) (s1 : Store) :
    ∀ (r : Except String ContactResponse) (s' : Store),
      (match gatherAllLinked pid s1 with
        | .error err => ((.error err : Except String ContactResponse), s1)
        | .ok allLinked0 =>
          let emailExists := allLinked0.any (fun c => c.email == e)
          let phoneExists := allLinked0.any (fun c => c.phoneNumber == ph)
          let hasNewInfo := (truthy e && !emailExists) || (truthy ph && !phoneExists)
          let (allLinked, s2) :=
            if hasNewInfo then
              let (secondary, s2) := createContact e ph (some pid) .secondary s1
              (allLinked0 ++ [secondary], s2)
            else (allLinked0, s1)
          match allLinked.find? (fun c => c.id == pid) with
          | none => (.error "TypeError: primary missing from gathered cluster", s2)
          | some primary =>
              (.ok (buildResponse primary (allLinked.filter (fun c => !(c.id == pid)))),
                s2)) = (r, s') →
      (s'.contacts = s1.contacts ∨
        ∃ nc : Contact, nc.linkPrecedence = .secondary ∧
          s'.contacts = s1.contacts ++ [nc]) ∧
      (∀ resp, r = .ok resp → resp.primaryContatctId = pid) := by
  intro r s' h
  cases hg : gatherAllLinked pid s1 with
  | error err =>
      rw [hg] at h
      dsimp only at h
      injection h with h1 h2
      subst h2
      subst h1
      refine ⟨Or.inl rfl, ?_⟩
      intro resp hresp
      exact Except.noConfusion hresp
  | ok allL =>
      rw [hg] at h
      dsimp only at h
      cases hni : (truthy e && !(allL.any fun c => c.email == e)
          || truthy ph && !(allL.any fun c => c.phoneNumber == ph)) with
      | false =>
          rw [hni] at h
          simp only [Bool.false_eq_true, if_false] at h
          cases hfind : allL.find? (fun c => c.id == pid) with
          | none =>
              rw [hfind] at h
              injection h with h1 h2
              subst h2
              subst h1
              refine ⟨Or.inl rfl, ?_⟩
              intro resp hresp
              exact Except.noConfusion hresp
          | some prim =>
              rw [hfind] at h
              injection h with h1 h2
              subst h2
              subst h1
              refine ⟨Or.inl rfl, ?_⟩
              intro resp hresp
              injection hresp with hresp'
              subst hresp'
              have hpr := List.find?_some hfind
              have hpe : prim.id = pid := by simpa using hpr
              exact hpe
      | true =>
          rw [hni] at h
          rw [if_pos rfl] at h
          dsimp only [createContact] at h
          cases hfind : (allL ++
              [({ id := s1.nextId, email := e, phoneNumber := ph, linkedId := some pid,
                  linkPrecedence := .secondary, createdAt := s1.now,
                  deletedAt := none } : Contact)]).find? (fun c => c.id == pid) with
          | none =>
              rw [hfind] at h
              injection h with h1 h2
              subst h2
              subst h1
              refine ⟨Or.inr ⟨_, rfl, rfl⟩, ?_⟩
              intro resp hresp
              exact Except.noConfusion hresp
          | some prim =>
              rw [hfind] at h
              injection h with h1 h2
              subst h2
              subst h1
              refine ⟨Or.inr ⟨_, rfl, rfl⟩, ?_⟩
              intro resp hresp
              injection hresp with hresp'
              subst hresp'
              have hpr := List.find?_some hfind
              have hpe : prim.id = pid := by simpa using hpr
              exact hpe

/-- **C1.** When the matched contacts resolve to several distinct primary
ids, the survivor is the smallest id, the losers stand in ascending order,
every live row linked to a loser ends up re-linked to the survivor, every
loser's own row ends up `secondary` with `linkedId = survivor`, the survivor
is the sole remaining primary among the formerly-primary ids, and an `ok`
response reports the survivor's id. -/
theorem c1_merge_demotes_losers (e ph : Option String) (s : Store) (hInv : Inv s)
    (v l0 : Nat) (ls : List Nat)
    (hres : resolvePrimaryIds (findContactsByEmailOrPhone e ph s) = v :: l0 :: ls) :
    (∀ l ∈ l0 :: ls, v < l) ∧ (l0 :: ls).Pairwise (· < ·) ∧
    (∀ r s', reconcile e ph s = (r, s') →
      (∀ l ∈ l0 :: ls, ∀ c ∈ s.contacts, c.deletedAt = none → c.linkedId = some l →
        ∃ c' ∈ s'.contacts, c'.id = c.id ∧ c'.linkedId = some v) ∧
      (∀ l ∈ l0 :: ls, ∃ c' ∈ s'.contacts, c'.id = l ∧
        c'.linkPrecedence = .secondary ∧ c'.linkedId = some v) ∧
      (∃ cv ∈ s'.contacts, cv.id = v ∧ cv.deletedAt = none ∧
        cv.linkPrecedence = .primary) ∧
      (∀ c' ∈ s'.contacts, c'.id ∈ v :: l0 :: ls →
        c'.linkPrecedence = .primary → c'.id = v) ∧
      (∀ resp, r = .ok resp → resp.primaryContatctId = v)) := by
  have hsorted : (v :: l0 :: ls).Pairwise (· < ·) := by
    rw [← hres]
    exact resolvePrimaryIds_sorted _
  have hvlt : ∀ l ∈ l0 :: ls, v < l := (List.pairwise_cons.mp hsorted).1
  refine ⟨hvlt, (List.pairwise_cons.mp hsorted).2, ?_⟩
  intro r s' h
  obtain ⟨m, ms, hm⟩ : ∃ m ms, findContactsByEmailOrPhone e ph s = m :: ms := by
    cases hmm : findContactsByEmailOrPhone e ph s with
    | nil =>
        rw [hmm] at hres
        have hr0 : resolvePrimaryIds [] = [] := rfl
        rw [hr0] at hres
        exact absurd hres (by simp)
    | cons m ms => exact ⟨m, ms, rfl⟩
  have hvmem : v ∈ resolvePrimaryIds (findContactsByEmailOrPhone e ph s) := by
    rw [hres]
    exact List.mem_cons_self _ _
  obtain ⟨p, hpmem, hpid', hplive, hpprim⟩ := resolved_is_live_primary hInv hvmem
  have hMH : MergeHyp s v (l0 :: ls) := by
    refine ⟨hInv, ⟨p, hpmem, hpid', hplive, hpprim⟩, ?_, hvlt, ?_⟩
    · intro l' hl'
      have hm' : l' ∈ resolvePrimaryIds (findContactsByEmailOrPhone e ph s) := by
        rw [hres]
        exact List.mem_cons_of_mem _ hl'
      exact resolved_is_live_primary hInv hm'
    · exact (List.pairwise_cons.mp hsorted).2.imp ne_of_lt
  obtain ⟨hrun, hinvM⟩ := mergeLoop_ok v (l0 :: ls) s hMH
  rw [hm] at hres
  unfold reconcile at h
  rw [hm] at h
  dsimp only at h
  rw [hres] at h
  simp only [List.isEmpty_cons] at h
  rw [if_neg (by simp)] at h
  rw [hrun] at h
  dsimp only at h
  obtain ⟨hext, hresp⟩ := merge_tail_shape e ph v (mergedStore v (l0 :: ls) s) r s' h
  have hsub : ∀ c' ∈ (mergedStore v (l0 :: ls) s).contacts, c' ∈ s'.contacts := by
    rcases hext with hh | ⟨nc, hnc, hh⟩
    · rw [hh]
      exact fun c hc => hc
    · rw [hh]
      exact fun c hc => List.mem_append.mpr (Or.inl hc)
  have hmerged_uniq : ∀ c' ∈ (mergedStore v (l0 :: ls) s).contacts,
      c'.id ∈ v :: l0 :: ls → c'.linkPrecedence = .primary → c'.id = v := by
    intro c' hc' hid hprim'
    obtain ⟨c, hc, rfl⟩ := List.mem_map.mp hc'
    by_cases hcl : c.id ∈ l0 :: ls
    · rw [mergeTransform, if_pos hcl] at hprim'
      exact absurd hprim' (fun hcon => LinkPrecedence.noConfusion hcon)
    · have hcid : (mergeTransform v (l0 :: ls) c).id = c.id :=
        (mergeTransform_fields v (l0 :: ls) c).1
      rw [hcid] at hid ⊢
      rcases List.mem_cons.mp hid with hv | hmem
      · exact hv
      · exact absurd hmem hcl
  refine ⟨?_, ?_, ?_, ?_, hresp⟩
  · intro l hl c hc hclive hclink
    have hcid_not : c.id ∉ l0 :: ls := by
      intro hmem
      obtain ⟨rowc, hrc1, hrc2, hrc3, hrc4⟩ := hMH.2.2.1 c.id hmem
      have hceq : c = rowc := id_inj hInv hc hrc1 hrc2.symm
      have hcnone : c.linkedId = none := by
        rw [hceq]
        exact (hInv.star rowc hrc1 hrc3).1 hrc4
      rw [hcnone] at hclink
      exact Option.noConfusion hclink
    refine ⟨mergeTransform v (l0 :: ls) c, hsub _ (List.mem_map_of_mem _ hc), ?_, ?_⟩
    · exact (mergeTransform_fields v (l0 :: ls) c).1
    · rw [mergeTransform, if_neg hcid_not, if_pos ⟨hclive, l, hl, hclink⟩]
  · intro l hl
    obtain ⟨rowl, hrl1, hrl2, hrl3, hrl4⟩ := hMH.2.2.1 l hl
    refine ⟨mergeTransform v (l0 :: ls) rowl,
      hsub _ (List.mem_map_of_mem _ hrl1), ?_, ?_, ?_⟩
    · rw [(mergeTransform_fields v (l0 :: ls) rowl).1, hrl2]
    · rw [mergeTransform, if_pos (by rw [hrl2]; exact hl)]
    · rw [mergeTransform, if_pos (by rw [hrl2]; exact hl)]
  · obtain ⟨cv, hcv1, hcv2, hcv3, hcv4⟩ := vrow_in_mergedStore v (l0 :: ls) s hMH
    exact ⟨cv, hsub _ hcv1, hcv2, hcv3, hcv4⟩
  · intro c' hc' hid hprim'
    rcases hext with hh | ⟨nc, hnc, hh⟩
    · rw [hh] at hc'
      exact hmerged_uniq c' hc' hid hprim'
    · rw [hh] at hc'
      rcases List.mem_append.mp hc' with hc'm | hc's
      · exact hmerged_uniq c' hc'm hid hprim'
      · rcases List.mem_singleton.mp hc's with rfl
        rw [hnc] at hprim'
        exact absurd hprim' (by decide)

/-- Closed instance of C1: merging `twoPrimaryStore` by a request carrying
the first cluster's email and the second cluster's phone leaves the smaller
id as the surviving primary. -/
theorem c1_merge_witness :
    ∃ cv ∈ (reconcile (some "a@x.com") (some "2") twoPrimaryStore).2.contacts,
      cv.id = 1 ∧ cv.deletedAt = none ∧ cv.linkPrecedence = .primary :=
  ((c1_merge_demotes_losers (some "a@x.com") (some "2") twoPrimaryStore (by decide) 1 2 []
      (by decide)).2.2
    (reconcile (some "a@x.com") (some "2") twoPrimaryStore).1
    (reconcile (some "a@x.com") (some "2") twoPrimaryStore).2 rfl).2.2.1

/-! ## AsyncLock — operational model (C4, C10)

`AsyncLock.acquire` loops `while (locks.has(key)) await locks.get(key)`, then
installs a fresh gate promise under the key and returns a `release` closure
that deletes the key's entry and resolves the gate.

The model below captures this under the JavaScript event loop:

* a task calling `acquire` either finds no table entry for its key and
  becomes the holder of a fresh gate (`arriveAcquire`), or subscribes to the
  current gate (`arriveWait`);
* `release` (first invocation, by a holder) deletes the key's entry and
  resolves its gate: every subscriber's continuation is enqueued, in
  subscription order, on the microtask queue (`release`);
* a dequeued continuation re-runs the loop check: it either installs a fresh
  gate (`popAcquire`) or re-subscribes to the gate some earlier continuation
  installed (`popWait`);
* run-to-completion: new arrivals and releases only happen once the
  microtask queue has drained (`queue = []` side conditions), because the
  event loop drains microtasks before running any further macrotask and a
  holder's release always runs in a later turn than the resumptions its
  predecessor flushed;
* a second invocation of an already-used release closure (`releaseAgain`,
  enabled only in the `true`-flagged relation) re-deletes whatever entry now
  occupies the key and re-resolves the dead gate (a no-op).

Task ids are assigned in arrival order, so id order is arrival order. -/

inductive Phase where
  | waiting (gate : Nat)
  | queued
  | holding (gate : Nat)
  | done (gate : Nat)
deriving DecidableEq, Repr

structure LTask where
  key : String
  phase : Phase
deriving DecidableEq, Repr

/-- The lock system: tasks (indexed by arrival order), the `locks` map,
subscriber lists per gate, the microtask queue, a fresh-gate counter, and the
log of lock grants `(task id, key)` in the order they happened. -/
structure LockSys where
  ntasks : Nat
  task : Nat → LTask
  table : String → Option Nat
  subs : Nat → List Nat
  queue : List Nat
  nextGate : Nat
  grants : List (Nat × String)

def lockInit : LockSys :=
  { ntasks := 0, task := fun _ => ⟨"", .queued⟩, table := fun _ => none,
    subs := fun _ => [], queue := [], nextGate := 0, grants := [] }

/-- One scheduler step.  The Boolean index enables the double-release step:
`LStep false` is the system under the exactly-once release discipline,
`LStep true` additionally allows a used release handle to fire again. -/
inductive LStep : Bool → LockSys → LockSys → Prop where
  | arriveAcquire (b : Bool) (k : String) (σ : LockSys)
      (hq : σ.queue = []) (ht : σ.table k = none) :
      LStep b σ
        { ntasks := σ.ntasks + 1
          task := fun i => if i = σ.ntasks then ⟨k, .holding σ.nextGate⟩ else σ.task i
          table := fun k' => if k' = k then some σ.nextGate else σ.table k'
          subs := fun g => if g = σ.nextGate then [] else σ.subs g
          queue := σ.queue
          nextGate := σ.nextGate + 1
          grants := σ.grants ++ [(σ.ntasks, k)] }
  | arriveWait (b : Bool) (k : String) (g : Nat) (σ : LockSys)
      (hq : σ.queue = []) (ht : σ.table k = some g) :
      LStep b σ
        { σ with
          ntasks := σ.ntasks + 1
          task := fun i => if i = σ.ntasks then ⟨k, .waiting g⟩ else σ.task i
          subs := fun g' => if g' = g then σ.subs g ++ [σ.ntasks] else σ.subs g' }
  | popAcquire (b : Bool) (t : Nat) (rest : List Nat) (σ : LockSys)
      (hq : σ.queue = t :: rest) (hlt : t < σ.ntasks)
      (hp : (σ.task t).phase = .queued)
      (ht : σ.table (σ.task t).key = none) :
      LStep b σ
        { σ with
          task := fun i => if i = t then ⟨(σ.task t).key, .holding σ.nextGate⟩
                  else σ.task i
          table := fun k' => if k' = (σ.task t).key then some σ.nextGate else σ.table k'
          subs := fun g => if g = σ.nextGate then [] else σ.subs g
          queue := rest
          nextGate := σ.nextGate + 1
          grants := σ.grants ++ [(t, (σ.task t).key)] }
  | popWait (b : Bool) (t : Nat) (rest : List Nat) (g : Nat) (σ : LockSys)
      (hq : σ.queue = t :: rest) (hlt : t < σ.ntasks)
      (hp : (σ.task t).phase = .queued)
      (ht : σ.table (σ.task t).key = some g) :
      LStep b σ
        { σ with
          task := fun i => if i = t then ⟨(σ.task t).key, .waiting g⟩ else σ.task i
          subs := fun g' => if g' = g then σ.subs g ++ [t] else σ.subs g'
          queue := rest }
  | release (b : Bool) (t : Nat) (g : Nat) (σ : LockSys)
      (hq : σ.queue = []) (hlt : t < σ.ntasks)
      (hp : (σ.task t).phase = .holding g) :
      LStep b σ
        { σ with
          task := fun i =>
            if i = t then ⟨(σ.task t).key, .done g⟩
            else if (σ.task i).phase = .waiting g then ⟨(σ.task i).key, .queued⟩
            else σ.task i
          table := fun k' => if k' = (σ.task t).key then none else σ.table k'
          subs := fun g' => if g' = g then [] else σ.subs g'
          queue := σ.subs g }
  | releaseAgain (t : Nat) (g : Nat) (σ : LockSys)
      (hq : σ.queue = []) (hlt : t < σ.ntasks)
      (hp : (σ.task t).phase = .done g) :
      LStep true σ
        { σ with table := fun k' => if k' = (σ.task t).key then none else σ.table k' }

/-- States reachable when every release handle fires exactly once. -/
def ReachSafe (σ : LockSys) : Prop := Relation.ReflTransGen (LStep false) lockInit σ

/-- States reachable when a used release handle may fire again. -/
def ReachFull (σ : LockSys) : Prop := Relation.ReflTransGen (LStep true) lockInit σ

/-- Microtask-queue entries of one key. -/
def queueOfKey (σ : LockSys) (k : String) : List Nat :=
  σ.queue.filter (fun t => (σ.task t).key = k)

/-- Subscribers of the key's current gate, if any. -/
def tableSubs (σ : LockSys) (k : String) : List Nat :=
  match σ.table k with
  | some g => σ.subs g
  | none => []

/-- The waiting line of one key: current-gate subscribers, then the queued
resumptions, in grant order. -/
def lineOf (σ : LockSys) (k : String) : List Nat :=
  tableSubs σ k ++ queueOfKey σ k

/-- The inductive invariant of the safe system. -/
structure Good (σ : LockSys) : Prop where
  junk : ∀ i, ¬ i < σ.ntasks → σ.task i = ⟨"", .queued⟩
  queueBound : ∀ t ∈ σ.queue, t < σ.ntasks ∧ (σ.task t).phase = .queued
  subsWait : ∀ g, ∀ t ∈ σ.subs g, t < σ.ntasks ∧ (σ.task t).phase = .waiting g
  waitSubs : ∀ i, i < σ.ntasks → ∀ g, (σ.task i).phase = .waiting g →
      σ.table (σ.task i).key = some g
  holdTable : ∀ i, i < σ.ntasks → ∀ g, (σ.task i).phase = .holding g →
      σ.table (σ.task i).key = some g
  tableHolder : ∀ k g, σ.table k = some g →
      ∃ i, i < σ.ntasks ∧ (σ.task i).key = k ∧ (σ.task i).phase = .holding g
  tableGateBound : ∀ k g, σ.table k = some g → g < σ.nextGate
  phaseGateBound : ∀ i, i < σ.ntasks → ∀ g,
      ((σ.task i).phase = .waiting g ∨ (σ.task i).phase = .holding g ∨
        (σ.task i).phase = .done g) → g < σ.nextGate
  ownUniq : ∀ i j, i < σ.ntasks → j < σ.ntasks → ∀ g,
      ((σ.task i).phase = .holding g ∨ (σ.task i).phase = .done g) →
      ((σ.task j).phase = .holding g ∨ (σ.task j).phase = .done g) → i = j
  grantsBound : ∀ p ∈ σ.grants, p.1 < σ.ntasks ∧ (σ.task p.1).key = p.2
  lineSorted : ∀ k, (lineOf σ k).Pairwise (· < ·)
  lineAboveGrants : ∀ k, ∀ t ∈ lineOf σ k, ∀ p ∈ σ.grants, p.2 = k → p.1 < t
  grantsSorted : σ.grants.Pairwise (fun a b => a.2 = b.2 → a.1 < b.1)
  queueNodup : σ.queue.Nodup
  subsNodup : ∀ g, (σ.subs g).Nodup

theorem good_init : Good lockInit := by
  constructor <;> simp [lockInit, lineOf, tableSubs, queueOfKey]

/-- Two keys never map to the same gate. -/
theorem table_inj {σ : LockSys} (hG : Good σ) {k1 k2 : String} {g : Nat}
    (h1 : σ.table k1 = some g) (h2 : σ.table k2 = some g) : k1 = k2 := by
  obtain ⟨i, hi, hik, hip⟩ := hG.tableHolder k1 g h1
  obtain ⟨j, hj, hjk, hjp⟩ := hG.tableHolder k2 g h2
  have hij : i = j := hG.ownUniq i j hi hj g (Or.inl hip) (Or.inl hjp)
  rw [← hik, ← hjk, hij]

/-- All members of a gate's subscriber list carry the key that gate is
registered under. -/
theorem subs_key {σ : LockSys} (hG : Good σ) {k : String} {g : Nat}
    (ht : σ.table k = some g) : ∀ t ∈ σ.subs g, (σ.task t).key = k := by
  intro t htmem
  obtain ⟨hbound, hwait⟩ := hG.subsWait g t htmem
  have := hG.waitSubs t hbound g hwait
  exact table_inj hG this ht

/-- Gates at or above the counter have no subscribers. -/
theorem subs_fresh {σ : LockSys} (hG : Good σ) {g : Nat} (hg : σ.nextGate ≤ g) :
    σ.subs g = [] := by
  cases hs : σ.subs g with
  | nil => rfl
  | cons a as =>
      obtain ⟨hbound, hwait⟩ := hG.subsWait g a (by rw [hs]; exact List.mem_cons_self _ _)
      have := hG.phaseGateBound a hbound g (Or.inl hwait)
      omega

/-- Elements of a line are real tasks. -/
theorem line_bound {σ : LockSys} (hG : Good σ) {k : String} :
    ∀ t ∈ lineOf σ k, t < σ.ntasks := by
  intro t ht
  rcases List.mem_append.mp ht with ht | ht
  · rw [tableSubs] at ht
    cases htb : σ.table k with
    | none => rw [htb] at ht; exact absurd ht (List.not_mem_nil t)
    | some g => rw [htb] at ht; exact (hG.subsWait g t ht).1
  · exact (hG.queueBound t (List.mem_of_mem_filter ht)).1

theorem good_arriveAcquire (σ : LockSys) (k : String)
    (hq : σ.queue = []) (ht : σ.table k = none) (hG : Good σ) :
    Good { ntasks := σ.ntasks + 1
           task := fun i => if i = σ.ntasks then ⟨k, .holding σ.nextGate⟩ else σ.task i
           table := fun k' => if k' = k then some σ.nextGate else σ.table k'
           subs := fun g => if g = σ.nextGate then [] else σ.subs g
           queue := σ.queue
           nextGate := σ.nextGate + 1
           grants := σ.grants ++ [(σ.ntasks, k)] } := by
  have hline : ∀ k0, lineOf
      { ntasks := σ.ntasks + 1
        task := fun i => if i = σ.ntasks then ⟨k, .holding σ.nextGate⟩ else σ.task i
        table := fun k' => if k' = k then some σ.nextGate else σ.table k'
        subs := fun g => if g = σ.nextGate then [] else σ.subs g
        queue := σ.queue
        nextGate := σ.nextGate + 1
        grants := σ.grants ++ [(σ.ntasks, k)] } k0 =
      (if k0 = k then [] else lineOf σ k0) := by
    intro k0
    by_cases hk : k0 = k
    · rw [if_pos hk, lineOf, tableSubs]
      dsimp only
      rw [if_pos hk]
      dsimp only
      rw [if_pos rfl, queueOfKey]
      dsimp only
      rw [hq]
      rfl
    · rw [if_neg hk, lineOf, lineOf, tableSubs, tableSubs]
      dsimp only
      rw [if_neg hk]
      cases htk : σ.table k0 with
      | none =>
          dsimp only
          rw [queueOfKey, queueOfKey]
          dsimp only
          rw [hq]
          rfl
      | some g =>
          have hgb := hG.tableGateBound k0 g htk
          dsimp only
          rw [if_neg (by omega), queueOfKey, queueOfKey]
          dsimp only
          rw [hq]
          rfl
  constructor
  case junk =>
    intro i hi
    dsimp only at hi ⊢
    rw [if_neg (by omega)]
    exact hG.junk i (by omega)
  case queueBound =>
    intro t htm
    dsimp only at htm
    rw [hq] at htm
    exact absurd htm (List.not_mem_nil t)
  case subsWait =>
    intro g t htm
    dsimp only at htm ⊢
    by_cases hg : g = σ.nextGate
    · rw [if_pos hg] at htm
      exact absurd htm (List.not_mem_nil t)
    · rw [if_neg hg] at htm
      obtain ⟨hb, hw⟩ := hG.subsWait g t htm
      refine ⟨by omega, ?_⟩
      rw [if_neg (by omega)]
      exact hw
  case waitSubs =>
    intro i hi g hw
    dsimp only at hi hw ⊢
    by_cases hin : i = σ.ntasks
    · rw [if_pos hin] at hw
      exact Phase.noConfusion hw
    · rw [if_neg hin] at hw ⊢
      have hi' : i < σ.ntasks := by omega
      have hws := hG.waitSubs i hi' g hw
      by_cases hik : (σ.task i).key = k
      · rw [hik, ht] at hws
        exact Option.noConfusion hws
      · rw [if_neg hik]
        exact hws
  case holdTable =>
    intro i hi g hh
    dsimp only at hi hh ⊢
    by_cases hin : i = σ.ntasks
    · rw [if_pos hin] at hh ⊢
      rw [if_pos rfl]
      injection hh with hh'
      rw [hh']
    · rw [if_neg hin] at hh ⊢
      have hi' : i < σ.ntasks := by omega
      have hhs := hG.holdTable i hi' g hh
      by_cases hik : (σ.task i).key = k
      · rw [hik, ht] at hhs
        exact Option.noConfusion hhs
      · rw [if_neg hik]
        exact hhs
  case tableHolder =>
    intro k' g htk
    dsimp only at htk ⊢
    by_cases hk : k' = k
    · rw [if_pos hk] at htk
      injection htk with htk'
      refine ⟨σ.ntasks, by omega, ?_, ?_⟩
      · rw [if_pos rfl]
        exact hk.symm
      · rw [if_pos rfl, htk']
    · rw [if_neg hk] at htk
      obtain ⟨i, hi, hik, hip⟩ := hG.tableHolder k' g htk
      refine ⟨i, by omega, ?_, ?_⟩
      · rw [if_neg (by omega)]
        exact hik
      · rw [if_neg (by omega)]
        exact hip
  case tableGateBound =>
    intro k' g htk
    dsimp only at htk ⊢
    by_cases hk : k' = k
    · rw [if_pos hk] at htk
      injection htk with htk'
      omega
    · rw [if_neg hk] at htk
      have := hG.tableGateBound k' g htk
      omega
  case phaseGateBound =>
    intro i hi g hg
    dsimp only at hi hg ⊢
    by_cases hin : i = σ.ntasks
    · rw [if_pos hin] at hg
      rcases hg with hg | hg | hg
      · exact Phase.noConfusion hg
      · injection hg with hg'
        omega
      · exact Phase.noConfusion hg
    · rw [if_neg hin] at hg
      have := hG.phaseGateBound i (by omega) g hg
      omega
  case ownUniq =>
    intro i j hi hj g hio hjo
    dsimp only at hi hj hio hjo
    by_cases hin : i = σ.ntasks <;> by_cases hjn : j = σ.ntasks
    · rw [hin, hjn]
    · rw [if_pos hin] at hio
      have hgn : g = σ.nextGate := by
        rcases hio with hio | hio
        · injection hio with h
          rw [h]
        · exact Phase.noConfusion hio
      rw [if_neg hjn] at hjo
      have := hG.phaseGateBound j (by omega) g
        (by rcases hjo with h | h
            · exact Or.inr (Or.inl h)
            · exact Or.inr (Or.inr h))
      omega
    · rw [if_pos hjn] at hjo
      have hgn : g = σ.nextGate := by
        rcases hjo with hjo | hjo
        · injection hjo with h
          rw [h]
        · exact Phase.noConfusion hjo
      rw [if_neg hin] at hio
      have := hG.phaseGateBound i (by omega) g
        (by rcases hio with h | h
            · exact Or.inr (Or.inl h)
            · exact Or.inr (Or.inr h))
      omega
    · rw [if_neg hin] at hio
      rw [if_neg hjn] at hjo
      exact hG.ownUniq i j (by omega) (by omega) g hio hjo
  case grantsBound =>
    intro p hp
    dsimp only at hp ⊢
    rcases List.mem_append.mp hp with hp | hp
    · obtain ⟨h1, h2⟩ := hG.grantsBound p hp
      refine ⟨by omega, ?_⟩
      rw [if_neg (by omega)]
      exact h2
    · rcases List.mem_singleton.mp hp with rfl
      refine ⟨by omega, ?_⟩
      rw [if_pos rfl]
  case lineSorted =>
    intro k0
    rw [hline k0]
    by_cases hk : k0 = k
    · rw [if_pos hk]
      exact List.Pairwise.nil
    · rw [if_neg hk]
      exact hG.lineSorted k0
  case lineAboveGrants =>
    intro k0 t htm p hp hpk
    rw [hline k0] at htm
    by_cases hk : k0 = k
    · rw [if_pos hk] at htm
      exact absurd htm (List.not_mem_nil t)
    · rw [if_neg hk] at htm
      dsimp only at hp
      rcases List.mem_append.mp hp with hp | hp
      · exact hG.lineAboveGrants k0 t htm p hp hpk
      · rcases List.mem_singleton.mp hp with rfl
        exact absurd hpk (by dsimp only at hpk ⊢; rw [hpk] at hk; exact absurd rfl hk)
  case grantsSorted =>
    dsimp only
    rw [List.pairwise_append]
    refine ⟨hG.grantsSorted, List.pairwise_singleton _ _, ?_⟩
    intro p hp q hq
    rcases List.mem_singleton.mp hq with rfl
    intro _
    exact (hG.grantsBound p hp).1
  case queueNodup =>
    dsimp only
    exact hG.queueNodup
  case subsNodup =>
    intro g
    dsimp only
    by_cases hg : g = σ.nextGate
    · rw [if_pos hg]
      exact List.nodup_nil
    · rw [if_neg hg]
      exact hG.subsNodup g

theorem good_arriveWait (σ : LockSys) (k : String) (g : Nat)
    (hq : σ.queue = []) (ht : σ.table k = some g) (hG : Good σ) :
    Good { σ with
           ntasks := σ.ntasks + 1
           task := fun i => if i = σ.ntasks then ⟨k, .waiting g⟩ else σ.task i
           subs := fun g' => if g' = g then σ.subs g ++ [σ.ntasks] else σ.subs g' } := by
  have hgb := hG.tableGateBound k g ht
  have hline : ∀ k0, lineOf
      { σ with
        ntasks := σ.ntasks + 1
        task := fun i => if i = σ.ntasks then ⟨k, .waiting g⟩ else σ.task i
        subs := fun g' => if g' = g then σ.subs g ++ [σ.ntasks] else σ.subs g' } k0 =
      (if k0 = k then lineOf σ k0 ++ [σ.ntasks] else lineOf σ k0) := by
    intro k0
    by_cases hk : k0 = k
    · rw [if_pos hk, lineOf, lineOf, tableSubs, tableSubs]
      dsimp only
      rw [hk, ht]
      dsimp only
      rw [if_pos rfl, queueOfKey, queueOfKey]
      dsimp only
      rw [hq]
      simp
    · rw [if_neg hk, lineOf, lineOf, tableSubs, tableSubs]
      dsimp only
      cases htk : σ.table k0 with
      | none =>
          dsimp only
          rw [queueOfKey, queueOfKey]
          dsimp only
          rw [hq]
          rfl
      | some g0 =>
          have hg0 : g0 ≠ g := by
            intro heq
            exact hk (table_inj hG (heq ▸ htk) ht)
          dsimp only
          rw [if_neg hg0, queueOfKey, queueOfKey]
          dsimp only
          rw [hq]
          rfl
  constructor
  case junk =>
    intro i hi
    dsimp only at hi ⊢
    rw [if_neg (by omega)]
    exact hG.junk i (by omega)
  case queueBound =>
    intro t htm
    dsimp only at htm
    rw [hq] at htm
    exact absurd htm (List.not_mem_nil t)
  case subsWait =>
    intro g' t htm
    dsimp only at htm ⊢
    by_cases hg' : g' = g
    · rw [if_pos hg'] at htm
      rcases List.mem_append.mp htm with htm | htm
      · obtain ⟨hb, hw⟩ := hG.subsWait g t htm
        refine ⟨by omega, ?_⟩
        rw [if_neg (by omega), hg']
        exact hw
      · rcases List.mem_singleton.mp htm with rfl
        refine ⟨by omega, ?_⟩
        rw [if_pos rfl, hg']
    · rw [if_neg hg'] at htm
      obtain ⟨hb, hw⟩ := hG.subsWait g' t htm
      refine ⟨by omega, ?_⟩
      rw [if_neg (by omega)]
      exact hw
  case waitSubs =>
    intro i hi g' hw
    dsimp only at hi hw ⊢
    by_cases hin : i = σ.ntasks
    · rw [if_pos hin] at hw ⊢
      injection hw with hw'
      rw [← hw']
      exact ht
    · rw [if_neg hin] at hw ⊢
      exact hG.waitSubs i (by omega) g' hw
  case holdTable =>
    intro i hi g' hh
    dsimp only at hi hh ⊢
    by_cases hin : i = σ.ntasks
    · rw [if_pos hin] at hh
      exact Phase.noConfusion hh
    · rw [if_neg hin] at hh ⊢
      exact hG.holdTable i (by omega) g' hh
  case tableHolder =>
    intro k' g' htk
    dsimp only at htk ⊢
    obtain ⟨i, hi, hik, hip⟩ := hG.tableHolder k' g' htk
    refine ⟨i, by omega, ?_, ?_⟩
    · rw [if_neg (by omega)]
      exact hik
    · rw [if_neg (by omega)]
      exact hip
  case tableGateBound =>
    intro k' g' htk
    dsimp only at htk ⊢
    exact hG.tableGateBound k' g' htk
  case phaseGateBound =>
    intro i hi g' hg'
    dsimp only at hi hg' ⊢
    by_cases hin : i = σ.ntasks
    · rw [if_pos hin] at hg'
      rcases hg' with h | h | h
      · injection h with h'
        omega
      · exact Phase.noConfusion h
      · exact Phase.noConfusion h
    · rw [if_neg hin] at hg'
      exact hG.phaseGateBound i (by omega) g' hg'
  case ownUniq =>
    intro i j hi hj g' hio hjo
    dsimp only at hi hj hio hjo
    by_cases hin : i = σ.ntasks
    · rw [if_pos hin] at hio
      rcases hio with h | h
      · exact Phase.noConfusion h
      · exact Phase.noConfusion h
    · by_cases hjn : j = σ.ntasks
      · rw [if_pos hjn] at hjo
        rcases hjo with h | h
        · exact Phase.noConfusion h
        · exact Phase.noConfusion h
      · rw [if_neg hin] at hio
        rw [if_neg hjn] at hjo
        exact hG.ownUniq i j (by omega) (by omega) g' hio hjo
  case grantsBound =>
    intro p hp
    dsimp only at hp ⊢
    obtain ⟨h1, h2⟩ := hG.grantsBound p hp
    refine ⟨by omega, ?_⟩
    rw [if_neg (by omega)]
    exact h2
  case lineSorted =>
    intro k0
    rw [hline k0]
    by_cases hk : k0 = k
    · rw [if_pos hk]
      rw [List.pairwise_append]
      refine ⟨hG.lineSorted k0, List.pairwise_singleton _ _, ?_⟩
      intro a ha b hb
      rcases List.mem_singleton.mp hb with rfl
      exact line_bound hG a ha
    · rw [if_neg hk]
      exact hG.lineSorted k0
  case lineAboveGrants =>
    intro k0 t htm p hp hpk
    rw [hline k0] at htm
    dsimp only at hp
    by_cases hk : k0 = k
    · rw [if_pos hk] at htm
      rcases List.mem_append.mp htm with htm | htm
      · exact hG.lineAboveGrants k0 t htm p hp hpk
      · rcases List.mem_singleton.mp htm with rfl
        have := (hG.grantsBound p hp).1
        omega
    · rw [if_neg hk] at htm
      exact hG.lineAboveGrants k0 t htm p hp hpk
  case grantsSorted =>
    dsimp only
    exact hG.grantsSorted
  case queueNodup =>
    dsimp only
    exact hG.queueNodup
  case subsNodup =>
    intro g'
    dsimp only
    by_cases hg' : g' = g
    · rw [if_pos hg', List.nodup_append]
      refine ⟨hG.subsNodup g, List.nodup_singleton _, ?_⟩
      intro a ha hb
      have hab : a = σ.ntasks := List.mem_singleton.mp hb
      have := (hG.subsWait g a ha).1
      omega
    · rw [if_neg hg']
      exact hG.subsNodup g'

theorem good_popAcquire (σ : LockSys) (t : Nat) (rest : List Nat)
    (hq : σ.queue = t :: rest) (hlt : t < σ.ntasks)
    (hp : (σ.task t).phase = .queued)
    (ht : σ.table (σ.task t).key = none) (hG : Good σ) :
    Good { σ with
           task := fun i => if i = t then ⟨(σ.task t).key, .holding σ.nextGate⟩
                   else σ.task i
           table := fun k' => if k' = (σ.task t).key then some σ.nextGate else σ.table k'
           subs := fun g => if g = σ.nextGate then [] else σ.subs g
           queue := rest
           nextGate := σ.nextGate + 1
           grants := σ.grants ++ [(t, (σ.task t).key)] } := by
  have htnr : t ∉ rest := by
    have hnd := hG.queueNodup
    rw [hq] at hnd
    exact (List.nodup_cons.mp hnd).1
  have hkeep : ∀ x ∈ rest,
      ((if x = t then (⟨(σ.task t).key, .holding σ.nextGate⟩ : LTask) else σ.task x)).key
        = (σ.task x).key := by
    intro x hx
    rw [if_neg (fun hxt : x = t => htnr (hxt ▸ hx))]
  have hfilter : ∀ k0 : String,
      rest.filter (fun x =>
        ((if x = t then (⟨(σ.task t).key, .holding σ.nextGate⟩ : LTask) else σ.task x)).key
          = k0) = rest.filter (fun x => (σ.task x).key = k0) := by
    intro k0
    refine List.filter_congr ?_
    intro x hx
    rw [hkeep x hx]
  have hlineK : lineOf σ (σ.task t).key = t ::
      lineOf { σ with
        task := fun i => if i = t then ⟨(σ.task t).key, .holding σ.nextGate⟩
                else σ.task i
        table := fun k' => if k' = (σ.task t).key then some σ.nextGate else σ.table k'
        subs := fun g => if g = σ.nextGate then [] else σ.subs g
        queue := rest
        nextGate := σ.nextGate + 1
        grants := σ.grants ++ [(t, (σ.task t).key)] } (σ.task t).key := by
    rw [lineOf, lineOf, tableSubs, tableSubs]
    dsimp only
    rw [ht, if_pos rfl]
    dsimp only
    rw [if_pos rfl, queueOfKey, queueOfKey]
    dsimp only
    rw [hq, hfilter]
    rw [List.filter_cons]
    simp
  have hlineO : ∀ k0, k0 ≠ (σ.task t).key →
      lineOf { σ with
        task := fun i => if i = t then ⟨(σ.task t).key, .holding σ.nextGate⟩
                else σ.task i
        table := fun k' => if k' = (σ.task t).key then some σ.nextGate else σ.table k'
        subs := fun g => if g = σ.nextGate then [] else σ.subs g
        queue := rest
        nextGate := σ.nextGate + 1
        grants := σ.grants ++ [(t, (σ.task t).key)] } k0 = lineOf σ k0 := by
    intro k0 hk0
    rw [lineOf, lineOf, tableSubs, tableSubs]
    dsimp only
    rw [if_neg hk0]
    have hqk : queueOfKey { σ with
        task := fun i => if i = t then ⟨(σ.task t).key, .holding σ.nextGate⟩
                else σ.task i
        table := fun k' => if k' = (σ.task t).key then some σ.nextGate else σ.table k'
        subs := fun g => if g = σ.nextGate then [] else σ.subs g
        queue := rest
        nextGate := σ.nextGate + 1
        grants := σ.grants ++ [(t, (σ.task t).key)] } k0 = queueOfKey σ k0 := by
      rw [queueOfKey, queueOfKey]
      dsimp only
      rw [hq, hfilter, List.filter_cons]
      have hnt : ¬ ((σ.task t).key = k0) := fun h => hk0 h.symm
      simp [hnt]
    rw [hqk]
    cases htk : σ.table k0 with
    | none => rfl
    | some g0 =>
        have hgb := hG.tableGateBound k0 g0 htk
        dsimp only
        rw [if_neg (by omega)]
  constructor
  case junk =>
    intro i hi
    dsimp only at hi ⊢
    rw [if_neg (by omega)]
    exact hG.junk i hi
  case queueBound =>
    intro t' htm
    dsimp only at htm ⊢
    have htm' : t' ∈ σ.queue := by
      rw [hq]
      exact List.mem_cons_of_mem _ htm
    obtain ⟨hb, hph⟩ := hG.queueBound t' htm'
    refine ⟨hb, ?_⟩
    rw [if_neg (fun h : t' = t => htnr (h ▸ htm))]
    exact hph
  case subsWait =>
    intro g t' htm
    dsimp only at htm ⊢
    by_cases hg : g = σ.nextGate
    · rw [if_pos hg] at htm
      exact absurd htm (List.not_mem_nil t')
    · rw [if_neg hg] at htm
      obtain ⟨hb, hw⟩ := hG.subsWait g t' htm
      refine ⟨hb, ?_⟩
      have hne : t' ≠ t := by
        intro heq
        rw [heq, hp] at hw
        exact Phase.noConfusion hw
      rw [if_neg hne]
      exact hw
  case waitSubs =>
    intro i hi g hw
    dsimp only at hi hw ⊢
    by_cases hit : i = t
    · rw [if_pos hit] at hw
      exact Phase.noConfusion hw
    · rw [if_neg hit] at hw ⊢
      have hws := hG.waitSubs i hi g hw
      by_cases hik : (σ.task i).key = (σ.task t).key
      · rw [hik, ht] at hws
        exact Option.noConfusion hws
      · rw [if_neg hik]
        exact hws
  case holdTable =>
    intro i hi g hh
    dsimp only at hi hh ⊢
    by_cases hit : i = t
    · rw [if_pos hit] at hh ⊢
      rw [if_pos rfl]
      injection hh with hh'
      rw [hh']
    · rw [if_neg hit] at hh ⊢
      have hhs := hG.holdTable i hi g hh
      by_cases hik : (σ.task i).key = (σ.task t).key
      · rw [hik, ht] at hhs
        exact Option.noConfusion hhs
      · rw [if_neg hik]
        exact hhs
  case tableHolder =>
    intro k' g htk
    dsimp only at htk ⊢
    by_cases hk : k' = (σ.task t).key
    · rw [if_pos hk] at htk
      injection htk with htk'
      refine ⟨t, hlt, ?_, ?_⟩
      · rw [if_pos rfl]
        exact hk.symm
      · rw [if_pos rfl, htk']
    · rw [if_neg hk] at htk
      obtain ⟨i, hi, hik, hip⟩ := hG.tableHolder k' g htk
      have hit : i ≠ t := by
        intro heq
        rw [heq, hp] at hip
        exact Phase.noConfusion hip
      refine ⟨i, hi, ?_, ?_⟩
      · rw [if_neg hit]
        exact hik
      · rw [if_neg hit]
        exact hip
  case tableGateBound =>
    intro k' g htk
    dsimp only at htk ⊢
    by_cases hk : k' = (σ.task t).key
    · rw [if_pos hk] at htk
      injection htk with htk'
      omega
    · rw [if_neg hk] at htk
      have := hG.tableGateBound k' g htk
      omega
  case phaseGateBound =>
    intro i hi g hg
    dsimp only at hi hg ⊢
    by_cases hit : i = t
    · rw [if_pos hit] at hg
      rcases hg with h | h | h
      · exact Phase.noConfusion h
      · injection h with h'
        omega
      · exact Phase.noConfusion h
    · rw [if_neg hit] at hg
      have := hG.phaseGateBound i hi g hg
      omega
  case ownUniq =>
    intro i j hi hj g hio hjo
    dsimp only at hi hj hio hjo
    by_cases hit : i = t <;> by_cases hjt : j = t
    · rw [hit, hjt]
    · rw [if_pos hit] at hio
      have hgn : g = σ.nextGate := by
        rcases hio with h | h
        · injection h with h'
          rw [h']
        · exact Phase.noConfusion h
      rw [if_neg hjt] at hjo
      have := hG.phaseGateBound j hj g
        (by rcases hjo with h | h
            · exact Or.inr (Or.inl h)
            · exact Or.inr (Or.inr h))
      omega
    · rw [if_pos hjt] at hjo
      have hgn : g = σ.nextGate := by
        rcases hjo with h | h
        · injection h with h'
          rw [h']
        · exact Phase.noConfusion h
      rw [if_neg hit] at hio
      have := hG.phaseGateBound i hi g
        (by rcases hio with h | h
            · exact Or.inr (Or.inl h)
            · exact Or.inr (Or.inr h))
      omega
    · rw [if_neg hit] at hio
      rw [if_neg hjt] at hjo
      exact hG.ownUniq i j hi hj g hio hjo
  case grantsBound =>
    intro p hpm
    dsimp only at hpm ⊢
    rcases List.mem_append.mp hpm with hpm | hpm
    · obtain ⟨h1, h2⟩ := hG.grantsBound p hpm
      refine ⟨h1, ?_⟩
      by_cases hpt : p.1 = t
      · rw [if_pos hpt]
        rw [hpt] at h2
        exact h2
      · rw [if_neg hpt]
        exact h2
    · rcases List.mem_singleton.mp hpm with rfl
      refine ⟨hlt, ?_⟩
      rw [if_pos rfl]
  case lineSorted =>
    intro k0
    by_cases hk : k0 = (σ.task t).key
    · rw [hk]
      have hs := hG.lineSorted (σ.task t).key
      rw [hlineK] at hs
      exact (List.pairwise_cons.mp hs).2
    · rw [hlineO k0 hk]
      exact hG.lineSorted k0
  case lineAboveGrants =>
    intro k0 u hu p hpm hpk
    dsimp only at hpm
    by_cases hk : k0 = (σ.task t).key
    · rw [hk] at hu
      have humem : u ∈ lineOf σ (σ.task t).key := by
        rw [hlineK]
        exact List.mem_cons_of_mem _ hu
      rcases List.mem_append.mp hpm with hpm | hpm
      · exact hG.lineAboveGrants (σ.task t).key u humem p hpm (hpk.trans hk)
      · rcases List.mem_singleton.mp hpm with rfl
        have hs := hG.lineSorted (σ.task t).key
        rw [hlineK] at hs
        exact (List.pairwise_cons.mp hs).1 u hu
    · rw [hlineO k0 hk] at hu
      rcases List.mem_append.mp hpm with hpm | hpm
      · exact hG.lineAboveGrants k0 u hu p hpm hpk
      · rcases List.mem_singleton.mp hpm with rfl
        exact absurd hpk (fun h => hk h.symm)
  case grantsSorted =>
    dsimp only
    rw [List.pairwise_append]
    refine ⟨hG.grantsSorted, List.pairwise_singleton _ _, ?_⟩
    intro p hpm q hqm
    rcases List.mem_singleton.mp hqm with rfl
    intro hpq
    have htm : t ∈ lineOf σ (σ.task t).key := by
      rw [hlineK]
      exact List.mem_cons_self _ _
    exact hG.lineAboveGrants (σ.task t).key t htm p hpm hpq
  case queueNodup =>
    dsimp only
    have hnd := hG.queueNodup
    rw [hq] at hnd
    exact (List.nodup_cons.mp hnd).2
  case subsNodup =>
    intro g
    dsimp only
    by_cases hg : g = σ.nextGate
    · rw [if_pos hg]
      exact List.nodup_nil
    · rw [if_neg hg]
      exact hG.subsNodup g

theorem good_popWait (σ : LockSys) (t : Nat) (rest : List Nat) (g : Nat)
    (hq : σ.queue = t :: rest) (hlt : t < σ.ntasks)
    (hp : (σ.task t).phase = .queued)
    (ht : σ.table (σ.task t).key = some g) (hG : Good σ) :
    Good { σ with
           task := fun i => if i = t then ⟨(σ.task t).key, .waiting g⟩ else σ.task i
           subs := fun g' => if g' = g then σ.subs g ++ [t] else σ.subs g'
           queue := rest } := by
  have htnr : t ∉ rest := by
    have hnd := hG.queueNodup
    rw [hq] at hnd
    exact (List.nodup_cons.mp hnd).1
  have hgb : g < σ.nextGate := hG.tableGateBound _ g ht
  have hkeep : ∀ x : Nat,
      ((if x = t then (⟨(σ.task t).key, .waiting g⟩ : LTask) else σ.task x)).key
        = (σ.task x).key := by
    intro x
    by_cases hx : x = t
    · rw [if_pos hx, hx]
    · rw [if_neg hx]
  have hfilter : ∀ (l : List Nat) (k0 : String),
      l.filter (fun x =>
        ((if x = t then (⟨(σ.task t).key, .waiting g⟩ : LTask) else σ.task x)).key
          = k0) = l.filter (fun x => (σ.task x).key = k0) := by
    intro l k0
    refine List.filter_congr ?_
    intro x hx
    rw [hkeep x]
  have htns : t ∉ σ.subs g := by
    intro hmem
    have := (hG.subsWait g t hmem).2
    rw [hp] at this
    exact Phase.noConfusion this
  have hline : ∀ k0, lineOf { σ with
        task := fun i => if i = t then ⟨(σ.task t).key, .waiting g⟩ else σ.task i
        subs := fun g' => if g' = g then σ.subs g ++ [t] else σ.subs g'
        queue := rest } k0 = lineOf σ k0 := by
    intro k0
    rw [lineOf, lineOf, tableSubs, tableSubs]
    dsimp only
    rw [queueOfKey, queueOfKey]
    dsimp only
    rw [hq, hfilter, List.filter_cons]
    by_cases hk : (σ.task t).key = k0
    · have htk0 : σ.table k0 = some g := by
        rw [← hk]
        exact ht
      rw [htk0]
      dsimp only
      rw [if_pos rfl]
      have hpt : (decide ((σ.task t).key = k0)) = true := by simp [hk]
      rw [hpt]
      simp
    · have hpt : (decide ((σ.task t).key = k0)) = false := by simp [hk]
      rw [hpt]
      simp only [Bool.false_eq_true, if_false]
      cases htk : σ.table k0 with
      | none => rfl
      | some g0 =>
          have hg0 : g0 ≠ g := by
            intro heq
            exact hk ((table_inj hG (heq ▸ htk) ht).symm)
          dsimp only
          rw [if_neg hg0]
  constructor
  case junk =>
    intro i hi
    dsimp only at hi ⊢
    rw [if_neg (by omega)]
    exact hG.junk i hi
  case queueBound =>
    intro t' htm
    dsimp only at htm ⊢
    have htm' : t' ∈ σ.queue := by
      rw [hq]
      exact List.mem_cons_of_mem _ htm
    obtain ⟨hb, hph⟩ := hG.queueBound t' htm'
    refine ⟨hb, ?_⟩
    rw [if_neg (fun h : t' = t => htnr (h ▸ htm))]
    exact hph
  case subsWait =>
    intro g' t' htm
    dsimp only at htm ⊢
    by_cases hg' : g' = g
    · rw [if_pos hg'] at htm
      rcases List.mem_append.mp htm with htm | htm
      · obtain ⟨hb, hw⟩ := hG.subsWait g t' htm
        have hne : t' ≠ t := by
          intro heq
          rw [heq, hp] at hw
          exact Phase.noConfusion hw
        refine ⟨hb, ?_⟩
        rw [if_neg hne, hg']
        exact hw
      · rcases List.mem_singleton.mp htm with rfl
        refine ⟨hlt, ?_⟩
        rw [if_pos rfl, hg']
    · rw [if_neg hg'] at htm
      obtain ⟨hb, hw⟩ := hG.subsWait g' t' htm
      have hne : t' ≠ t := by
        intro heq
        rw [heq, hp] at hw
        exact Phase.noConfusion hw
      refine ⟨hb, ?_⟩
      rw [if_neg hne]
      exact hw
  case waitSubs =>
    intro i hi g' hw
    dsimp only at hi hw ⊢
    by_cases hit : i = t
    · rw [if_pos hit] at hw ⊢
      injection hw with hw'
      rw [← hw']
      exact ht
    · rw [if_neg hit] at hw ⊢
      exact hG.waitSubs i hi g' hw
  case holdTable =>
    intro i hi g' hh
    dsimp only at hi hh ⊢
    by_cases hit : i = t
    · rw [if_pos hit] at hh
      exact Phase.noConfusion hh
    · rw [if_neg hit] at hh ⊢
      exact hG.holdTable i hi g' hh
  case tableHolder =>
    intro k' g' htk
    dsimp only at htk ⊢
    obtain ⟨i, hi, hik, hip⟩ := hG.tableHolder k' g' htk
    have hit : i ≠ t := by
      intro heq
      rw [heq, hp] at hip
      exact Phase.noConfusion hip
    refine ⟨i, hi, ?_, ?_⟩
    · rw [if_neg hit]
      exact hik
    · rw [if_neg hit]
      exact hip
  case tableGateBound =>
    intro k' g' htk
    dsimp only at htk ⊢
    exact hG.tableGateBound k' g' htk
  case phaseGateBound =>
    intro i hi g' hg'
    dsimp only at hi hg' ⊢
    by_cases hit : i = t
    · rw [if_pos hit] at hg'
      rcases hg' with h | h | h
      · injection h with h'
        omega
      · exact Phase.noConfusion h
      · exact Phase.noConfusion h
    · rw [if_neg hit] at hg'
      exact hG.phaseGateBound i hi g' hg'
  case ownUniq =>
    intro i j hi hj g' hio hjo
    dsimp only at hi hj hio hjo
    by_cases hit : i = t
    · rw [if_pos hit] at hio
      rcases hio with h | h
      · exact Phase.noConfusion h
      · exact Phase.noConfusion h
    · by_cases hjt : j = t
      · rw [if_pos hjt] at hjo
        rcases hjo with h | h
        · exact Phase.noConfusion h
        · exact Phase.noConfusion h
      · rw [if_neg hit] at hio
        rw [if_neg hjt] at hjo
        exact hG.ownUniq i j hi hj g' hio hjo
  case grantsBound =>
    intro p hpm
    dsimp only at hpm ⊢
    obtain ⟨h1, h2⟩ := hG.grantsBound p hpm
    refine ⟨h1, ?_⟩
    rw [hkeep p.1]
    exact h2
  case lineSorted =>
    intro k0
    rw [hline k0]
    exact hG.lineSorted k0
  case lineAboveGrants =>
    intro k0 u hu p hpm hpk
    rw [hline k0] at hu
    dsimp only at hpm
    exact hG.lineAboveGrants k0 u hu p hpm hpk
  case grantsSorted =>
    dsimp only
    exact hG.grantsSorted
  case queueNodup =>
    dsimp only
    have hnd := hG.queueNodup
    rw [hq] at hnd
    exact (List.nodup_cons.mp hnd).2
  case subsNodup =>
    intro g'
    dsimp only
    by_cases hg' : g' = g
    · rw [if_pos hg', List.nodup_append]
      refine ⟨hG.subsNodup g, List.nodup_singleton _, ?_⟩
      intro a ha hb
      have hab : a = t := List.mem_singleton.mp hb
      rw [hab] at ha
      exact htns ha
    · rw [if_neg hg']
      exact hG.subsNodup g'

theorem good_release (σ : LockSys) (t : Nat) (g : Nat)
    (hq : σ.queue = []) (hlt : t < σ.ntasks)
    (hp : (σ.task t).phase = .holding g) (hG : Good σ) :
    Good { σ with
           task := fun i =>
             if i = t then ⟨(σ.task t).key, .done g⟩
             else if (σ.task i).phase = .waiting g then ⟨(σ.task i).key, .queued⟩
             else σ.task i
           table := fun k' => if k' = (σ.task t).key then none else σ.table k'
           subs := fun g' => if g' = g then [] else σ.subs g'
           queue := σ.subs g } := by
  have htk : σ.table (σ.task t).key = some g := hG.holdTable t hlt g hp
  have hsk : ∀ u ∈ σ.subs g, (σ.task u).key = (σ.task t).key := subs_key hG htk
  have hkeep : ∀ x : Nat,
      ((if x = t then (⟨(σ.task t).key, .done g⟩ : LTask)
        else if (σ.task x).phase = .waiting g then (⟨(σ.task x).key, .queued⟩ : LTask)
        else σ.task x)).key = (σ.task x).key := by
    intro x
    by_cases hx : x = t
    · rw [if_pos hx, hx]
    · rw [if_neg hx]
      by_cases hw : (σ.task x).phase = .waiting g
      · rw [if_pos hw]
      · rw [if_neg hw]
  have hfilter : ∀ (l : List Nat) (k0 : String),
      l.filter (fun x =>
        ((if x = t then (⟨(σ.task t).key, .done g⟩ : LTask)
          else if (σ.task x).phase = .waiting g then (⟨(σ.task x).key, .queued⟩ : LTask)
          else σ.task x)).key = k0) = l.filter (fun x => (σ.task x).key = k0) := by
    intro l k0
    refine List.filter_congr ?_
    intro x hx
    rw [hkeep x]
  have hline : ∀ k0, lineOf { σ with
        task := fun i =>
          if i = t then ⟨(σ.task t).key, .done g⟩
          else if (σ.task i).phase = .waiting g then ⟨(σ.task i).key, .queued⟩
          else σ.task i
        table := fun k' => if k' = (σ.task t).key then none else σ.table k'
        subs := fun g' => if g' = g then [] else σ.subs g'
        queue := σ.subs g } k0 = lineOf σ k0 := by
    intro k0
    rw [lineOf, lineOf, tableSubs, tableSubs]
    dsimp only
    rw [queueOfKey, queueOfKey]
    dsimp only
    rw [hq, hfilter]
    by_cases hk : k0 = (σ.task t).key
    · rw [if_pos hk, hk, htk]
      dsimp only
      have hall : (σ.subs g).filter (fun x => decide ((σ.task x).key = (σ.task t).key))
          = σ.subs g := by
        refine Eq.trans (List.filter_congr ?_) (List.filter_true _)
        intro x hx
        simp [hsk x hx]
      rw [hall]
      simp
    · rw [if_neg hk]
      have hnone : (σ.subs g).filter (fun x => decide ((σ.task x).key = k0)) = [] := by
        rw [List.filter_eq_nil_iff]
        intro x hx
        rw [hsk x hx]
        simp only [decide_eq_true_eq]
        exact fun h => hk h.symm
      rw [hnone]
      cases htk0 : σ.table k0 with
      | none => rfl
      | some g0 =>
          have hg0 : g0 ≠ g := by
            intro heq
            exact hk (table_inj hG (heq ▸ htk0) htk)
          dsimp only
          rw [if_neg hg0]
          rfl
  constructor
  case junk =>
    intro i hi
    dsimp only at hi ⊢
    rw [if_neg (by omega)]
    have hj := hG.junk i hi
    rw [hj]
    rw [if_neg (fun hcon => Phase.noConfusion hcon)]
  case queueBound =>
    intro u hu
    dsimp only at hu ⊢
    obtain ⟨hb, hw⟩ := hG.subsWait g u hu
    have hut : u ≠ t := by
      intro heq
      rw [heq, hp] at hw
      exact Phase.noConfusion hw
    refine ⟨hb, ?_⟩
    rw [if_neg hut, if_pos hw]
  case subsWait =>
    intro g' u hu
    dsimp only at hu ⊢
    by_cases hg' : g' = g
    · rw [if_pos hg'] at hu
      exact absurd hu (List.not_mem_nil u)
    · rw [if_neg hg'] at hu
      obtain ⟨hb, hw⟩ := hG.subsWait g' u hu
      have hut : u ≠ t := by
        intro heq
        rw [heq, hp] at hw
        exact Phase.noConfusion hw
      refine ⟨hb, ?_⟩
      rw [if_neg hut, if_neg ?_]
      · exact hw
      · intro hcon
        rw [hw] at hcon
        injection hcon with hcon'
        exact hg' hcon'
  case waitSubs =>
    intro i hi g' hw
    dsimp only at hi hw ⊢
    by_cases hit : i = t
    · rw [if_pos hit] at hw
      exact Phase.noConfusion hw
    · rw [if_neg hit] at hw ⊢
      by_cases hwg : (σ.task i).phase = .waiting g
      · rw [if_pos hwg] at hw
        exact Phase.noConfusion hw
      · rw [if_neg hwg] at hw ⊢
        have hws := hG.waitSubs i hi g' hw
        have hgg : g' ≠ g := by
          intro heq
          rw [heq] at hw
          exact hwg hw
        by_cases hik : (σ.task i).key = (σ.task t).key
        · rw [hik, htk] at hws
          injection hws with hws'
          exact absurd hws'.symm hgg
        · rw [if_neg hik]
          exact hws
  case holdTable =>
    intro i hi g' hh
    dsimp only at hi hh ⊢
    by_cases hit : i = t
    · rw [if_pos hit] at hh
      exact Phase.noConfusion hh
    · rw [if_neg hit] at hh ⊢
      by_cases hwg : (σ.task i).phase = .waiting g
      · rw [if_pos hwg] at hh
        exact Phase.noConfusion hh
      · rw [if_neg hwg] at hh ⊢
        have hhs := hG.holdTable i hi g' hh
        by_cases hik : (σ.task i).key = (σ.task t).key
        · rw [hik, htk] at hhs
          injection hhs with hhs'
          have : i = t := hG.ownUniq i t hi hlt g
            (Or.inl (hhs' ▸ hh)) (Or.inl hp)
          exact absurd this hit
        · rw [if_neg hik]
          exact hhs
  case tableHolder =>
    intro k' g' htk'
    dsimp only at htk' ⊢
    by_cases hk : k' = (σ.task t).key
    · rw [if_pos hk] at htk'
      exact Option.noConfusion htk'
    · rw [if_neg hk] at htk'
      obtain ⟨i, hi, hik, hip⟩ := hG.tableHolder k' g' htk'
      have hit : i ≠ t := by
        intro heq
        rw [heq] at hik
        exact hk (hik.symm ▸ rfl)
      have hwg : ¬ (σ.task i).phase = .waiting g := by
        rw [hip]
        exact fun hcon => Phase.noConfusion hcon
      refine ⟨i, hi, ?_, ?_⟩
      · rw [if_neg hit, if_neg hwg]
        exact hik
      · rw [if_neg hit, if_neg hwg]
        exact hip
  case tableGateBound =>
    intro k' g' htk'
    dsimp only at htk' ⊢
    by_cases hk : k' = (σ.task t).key
    · rw [if_pos hk] at htk'
      exact Option.noConfusion htk'
    · rw [if_neg hk] at htk'
      exact hG.tableGateBound k' g' htk'
  case phaseGateBound =>
    intro i hi g' hg'
    dsimp only at hi hg' ⊢
    by_cases hit : i = t
    · rw [if_pos hit] at hg'
      rcases hg' with h | h | h
      · exact Phase.noConfusion h
      · exact Phase.noConfusion h
      · injection h with h'
        have := hG.phaseGateBound t hlt g (Or.inr (Or.inl hp))
        omega
    · rw [if_neg hit] at hg'
      by_cases hwg : (σ.task i).phase = .waiting g
      · rw [if_pos hwg] at hg'
        rcases hg' with h | h | h
        · exact Phase.noConfusion h
        · exact Phase.noConfusion h
        · exact Phase.noConfusion h
      · rw [if_neg hwg] at hg'
        exact hG.phaseGateBound i hi g' hg'
  case ownUniq =>
    intro i j hi hj g' hio hjo
    dsimp only at hi hj hio hjo
    have hconv : ∀ x, x < σ.ntasks →
        ((if x = t then (⟨(σ.task t).key, .done g⟩ : LTask)
          else if (σ.task x).phase = .waiting g then (⟨(σ.task x).key, .queued⟩ : LTask)
          else σ.task x)).phase = .holding g' ∨
        ((if x = t then (⟨(σ.task t).key, .done g⟩ : LTask)
          else if (σ.task x).phase = .waiting g then (⟨(σ.task x).key, .queued⟩ : LTask)
          else σ.task x)).phase = .done g' →
        (σ.task x).phase = .holding g' ∨ (σ.task x).phase = .done g' := by
      intro x hx hx'
      by_cases hxt : x = t
      · rw [if_pos hxt] at hx'
        rcases hx' with h | h
        · exact Phase.noConfusion h
        · injection h with h'
          rw [hxt, hp, ← h']
          exact Or.inl rfl
      · rw [if_neg hxt] at hx'
        by_cases hwg : (σ.task x).phase = .waiting g
        · rw [if_pos hwg] at hx'
          rcases hx' with h | h
          · exact Phase.noConfusion h
          · exact Phase.noConfusion h
        · rw [if_neg hwg] at hx'
          exact hx'
    exact hG.ownUniq i j hi hj g' (hconv i hi hio) (hconv j hj hjo)
  case grantsBound =>
    intro p hpm
    dsimp only at hpm ⊢
    obtain ⟨h1, h2⟩ := hG.grantsBound p hpm
    refine ⟨h1, ?_⟩
    rw [hkeep p.1]
    exact h2
  case lineSorted =>
    intro k0
    rw [hline k0]
    exact hG.lineSorted k0
  case lineAboveGrants =>
    intro k0 u hu p hpm hpk
    rw [hline k0] at hu
    dsimp only at hpm
    exact hG.lineAboveGrants k0 u hu p hpm hpk
  case grantsSorted =>
    dsimp only
    exact hG.grantsSorted
  case queueNodup =>
    dsimp only
    exact hG.subsNodup g
  case subsNodup =>
    intro g'
    dsimp only
    by_cases hg' : g' = g
    · rw [if_pos hg']
      exact List.nodup_nil
    · rw [if_neg hg']
      exact hG.subsNodup g'

theorem lstep_good {σ σ' : LockSys} (h : LStep false σ σ') (hG : Good σ) : Good σ' := by
  cases h with
  | arriveAcquire _ k _ hq ht => exact good_arriveAcquire σ k hq ht hG
  | arriveWait _ k g _ hq ht => exact good_arriveWait σ k g hq ht hG
  | popAcquire _ t rest _ hq hlt hp ht => exact good_popAcquire σ t rest hq hlt hp ht hG
  | popWait _ t rest g _ hq hlt hp ht => exact good_popWait σ t rest g hq hlt hp ht hG
  | release _ t g _ hq hlt hp => exact good_release σ t g hq hlt hp hG

/-- Every state of the exactly-once-release system satisfies the invariant. -/
theorem reachSafe_good {σ : LockSys} (h : ReachSafe σ) : Good σ := by
  rw [ReachSafe] at h
  induction h with
  | refl => exact good_init
  | tail _ hstep ih => exact lstep_good hstep ih

/-- Per-key mutual exclusion in the safe system: two tasks holding the lock on
the same key are the same task. -/
theorem safe_mutex {σ : LockSys} (h : ReachSafe σ) :
    ∀ i j g g', i < σ.ntasks → j < σ.ntasks →
    (σ.task i).phase = .holding g → (σ.task j).phase = .holding g' →
    (σ.task i).key = (σ.task j).key → i = j := by
  intro i j g g' hi hj hpi hpj hk
  have hG := reachSafe_good h
  have h1 := hG.holdTable i hi g hpi
  have h2 := hG.holdTable j hj g' hpj
  rw [hk, h2] at h1
  injection h1 with hgg
  exact hG.ownUniq i j hi hj g (Or.inl hpi)
    (Or.inl (by rw [hpj, hgg]))

/-- C4: in every state reachable under the exactly-once-release discipline,
each key admits at most one concurrent lock holder; the log of lock grants is,
per key, strictly ascending in task-arrival order (waiters on one key are
granted the lock in FIFO order of arrival); and two tasks holding locks on two
distinct keys can be inside their critical sections simultaneously. -/
theorem c4_mutex_fifo_per_key :
    (∀ σ, ReachSafe σ → ∀ i j g g', i < σ.ntasks → j < σ.ntasks →
        (σ.task i).phase = .holding g → (σ.task j).phase = .holding g' →
        (σ.task i).key = (σ.task j).key → i = j) ∧
    (∀ σ, ReachSafe σ → σ.grants.Pairwise (fun a b => a.2 = b.2 → a.1 < b.1)) ∧
    (∃ σ, ReachSafe σ ∧ 0 < σ.ntasks ∧ 1 < σ.ntasks ∧
        (σ.task 0).key ≠ (σ.task 1).key ∧
        (σ.task 0).phase = .holding 0 ∧ (σ.task 1).phase = .holding 1) := by
  refine ⟨fun σ h => safe_mutex h, fun σ h => (reachSafe_good h).grantsSorted, ?_⟩
  refine ⟨_, Relation.ReflTransGen.tail (Relation.ReflTransGen.single
      (LStep.arriveAcquire false "a" lockInit rfl rfl))
      (LStep.arriveAcquire false "b" _ rfl (by decide)),
    by decide, by decide, by decide, by decide, by decide⟩

/-- C10: the release handle is not idempotent.  Under exactly-once release,
per-key mutual exclusion holds; but in the full system, where a used handle may
fire a second time, the second firing unconditionally deletes whatever entry
occupies the key, and a state is reachable in which two distinct tasks hold the
lock on the same key at once. -/
theorem c10_double_release_breaks_mutex :
    (∀ σ, ReachSafe σ → ∀ i j g g', i < σ.ntasks → j < σ.ntasks →
        (σ.task i).phase = .holding g → (σ.task j).phase = .holding g' →
        (σ.task i).key = (σ.task j).key → i = j) ∧
    (∃ σ, ReachFull σ ∧ 1 < σ.ntasks ∧ 2 < σ.ntasks ∧
        (σ.task 1).key = (σ.task 2).key ∧
        (σ.task 1).phase = .holding 1 ∧ (σ.task 2).phase = .holding 2) := by
  refine ⟨fun σ h => safe_mutex h, ?_⟩
  refine ⟨_, Relation.ReflTransGen.tail (Relation.ReflTransGen.tail
      (Relation.ReflTransGen.tail (Relation.ReflTransGen.tail
        (Relation.ReflTransGen.single
          (LStep.arriveAcquire true "k" lockInit rfl rfl))
        (LStep.release true 0 0 _ rfl (by decide) (by decide)))
      (LStep.arriveAcquire true "k" _ (by decide) (by decide)))
      (LStep.releaseAgain 0 0 _ (by decide) (by decide) (by decide)))
      (LStep.arriveAcquire true "k" _ (by decide) (by decide)),
    by decide, by decide, by decide, by decide, by decide⟩

end Bitespeed
